import Mathlib

/-!
Verification of the pulse-propagation network simulator of `day20.rs`
(Advent of Code 2023, day 20): the module data model, the queue-driven
press simulator `handle_button_press`, the cycle-aware extrapolator
`pulses`, and the parser `from_str`, embedded shallowly as executable
Lean definitions, together with theorems about the behaviour of these
definitions.

Embedding conventions:
* the trait objects of the source become the closed sum `Module`;
* the `HashMap<String, Box<dyn Module>>` of modules becomes an
  insertion-ordered list with unique-key insertion (`insertModule`);
* a `Conjunction`'s remembered-input `HashMap<String, Pulse>` becomes an
  association list kept sorted by key (the source sorts this map whenever
  it serializes it, so the sorted list is its canonical form);
* the press loop, which need not terminate on every network, takes
  explicit fuel bounding the number of dequeued events and returns
  `none` when the fuel runs out;
* `u32` arithmetic is modelled as natural-number arithmetic modulo a
  parameter `W`; `W = 2 ^ 32` gives the source's wrapping `u32`
  arithmetic and `W = 0` gives exact unbounded arithmetic (`n % 0 = n`).
-/

set_option autoImplicit false
set_option maxHeartbeats 1000000

deriving instance DecidableEq for Except

namespace Day20

/-- A pulse is a two-valued signal, `Low` or `High`. -/
inductive Pulse where
  | low
  | high
deriving DecidableEq, Repr

/-- Whether a pulse is `High`. -/
def Pulse.isHigh : Pulse → Bool
  | .low => false
  | .high => true

/-- The id under which the broadcaster registers itself
(`Broadcaster::BROADCASTER_ID`). -/
def broadcasterId : String := "broadcaster"

/-- The three module variants of the network (`Broadcaster`, `FlipFlop`,
`Conjunction` in the source), embedded as a closed sum.  A flip-flop
carries its `on` boolean, a conjunction its remembered last pulse per
input. -/
inductive Module where
  | broadcaster (destinations : List String)
  | flipFlop (id : String) (destinations : List String) (isOn : Bool)
  | conjunction (id : String) (destinations : List String) (inputs : List (String × Pulse))
deriving DecidableEq, Repr

/-- `Module::id`.  The broadcaster always reports the constant id. -/
def Module.id : Module → String
  | .broadcaster _ => broadcasterId
  | .flipFlop i _ _ => i
  | .conjunction i _ _ => i

/-- `Module::destinations`. -/
def Module.destinations : Module → List String
  | .broadcaster d => d
  | .flipFlop _ d _ => d
  | .conjunction _ d _ => d

/-- A numeric tag for the variant, used to state frame properties. -/
def Module.variantTag : Module → Nat
  | .broadcaster _ => 0
  | .flipFlop _ _ _ => 1
  | .conjunction _ _ _ => 2

/-- Ordering on keys used to keep a conjunction's input map canonical. -/
def charsLt : List Char → List Char → Bool
  | [], [] => false
  | [], _ :: _ => true
  | _ :: _, [] => false
  | a :: as, b :: bs =>
    if a.val < b.val then true
    else if b.val < a.val then false
    else charsLt as bs

/-- Ordering on strings used to keep a conjunction's input map canonical. -/
def strLt (a b : String) : Bool := charsLt a.data b.data

/-- Insertion into a conjunction's remembered-input map
(`self.inputs.insert(source, pulse)` on the source's `HashMap`): replace
the value if the key is present, otherwise add the key.  The association
list is kept sorted so that equal maps have equal representations. -/
def insertPulse (src : String) (p : Pulse) : List (String × Pulse) → List (String × Pulse)
  | [] => [(src, p)]
  | (k, v) :: rest =>
    if src = k then (src, p) :: rest
    else if strLt src k then (src, p) :: (k, v) :: rest
    else (k, v) :: insertPulse src p rest

/-- `Conjunction::add_input`: register an input with initial value `Low`. -/
def add_input (inputs : List (String × Pulse)) (inputId : String) : List (String × Pulse) :=
  insertPulse inputId Pulse.low inputs

/-- `Module::handle_pulse`: the transition function of one module.  It
returns the updated module and the emitted `(destination, pulse)` pairs
in destination-list order.

* the broadcaster echoes the pulse to every destination and keeps no state;
* a flip-flop ignores `High`; on `Low` it toggles and emits `High` when
  now on, `Low` when now off;
* a conjunction first records the pulse under the source's key, then
  emits `Low` if every recorded value is `High` and `High` otherwise. -/
def Module.handle_pulse : Module → Pulse → String → Module × List (String × Pulse)
  | .broadcaster dests, p, _ =>
    (.broadcaster dests, dests.map fun d => (d, p))
  | .flipFlop i dests isOn, p, _ =>
    match p with
    | .high => (.flipFlop i dests isOn, [])
    | .low =>
      let nowOn := !isOn
      (.flipFlop i dests nowOn,
        dests.map fun d => (d, if nowOn then Pulse.high else Pulse.low))
  | .conjunction i dests inputs, p, src =>
    let inputs' := insertPulse src p inputs
    let outbound := if inputs'.all (fun kv => kv.2.isHigh) then Pulse.low else Pulse.high
    (.conjunction i dests inputs', dests.map fun d => (d, outbound))

/-- The network: the map of all modules (`PulseMachine.modules`),
embedded as a list with unique ids when built by `from_str`. -/
structure PulseMachine where
  modules : List Module
deriving DecidableEq, Repr

/-- A pulse event: `(source, destination, pulse)`. -/
abbrev Event := String × String × Pulse

/-- Lookup of `modules.get(destination)` in the list embedding. -/
def findModule (dst : String) : List Module → Option Module
  | [] => none
  | md :: rest => if md.id = dst then some md else findModule dst rest

/-- In-place mutation of the module found by `get_mut`: replace the first
module whose id is `dst`. -/
def updateModule (dst : String) (newMd : Module) : List Module → List Module
  | [] => []
  | md :: rest => if md.id = dst then newMd :: rest else md :: updateModule dst newMd rest

/-- The queue loop of `PulseMachine::handle_button_press`: pop the head,
tally its pulse, and if the destination names a module let it handle the
pulse and append the emitted events (sourced from the handling module's
id) at the tail; an unknown destination is a sink.  `fuel` bounds the
number of dequeues, since the source loop need not terminate for every
network (for example a conjunction feeding itself).  Tallies are the
exact numbers of low and high pulses dequeued. -/
def runPress : Nat → PulseMachine → List Event → Nat → Nat → Option ((Nat × Nat) × PulseMachine)
  | _, m, [], low, high => some ((low, high), m)
  | 0, _, _ :: _, _, _ => none
  | fuel + 1, m, (src, dst, p) :: rest, low, high =>
    let low' := match p with | .low => low + 1 | .high => low
    let high' := match p with | .low => high | .high => high + 1
    match findModule dst m.modules with
    | none => runPress fuel m rest low' high'
    | some md =>
      let res := md.handle_pulse p src
      runPress fuel ⟨updateModule dst res.1 m.modules⟩
        (rest ++ res.2.map fun out => (res.1.id, out.1, out.2)) low' high'

/-- `PulseMachine::handle_button_press`: run one press starting from the
single synthetic button event. -/
def PulseMachine.handle_button_press (fuel : Nat) (m : PulseMachine) :
    Option ((Nat × Nat) × PulseMachine) :=
  runPress fuel m [("button", broadcasterId, Pulse.low)] 0 0

/-- The number of events dequeued by the press loop: same recursion as
`runPress`, counting dequeues instead of tallying polarities. -/
def runPressPops : Nat → PulseMachine → List Event → Nat → Option Nat
  | _, _, [], d => some d
  | 0, _, _ :: _, _ => none
  | fuel + 1, m, (src, dst, p) :: rest, d =>
    match findModule dst m.modules with
    | none => runPressPops fuel m rest (d + 1)
    | some md =>
      let res := md.handle_pulse p src
      runPressPops fuel ⟨updateModule dst res.1 m.modules⟩
        (rest ++ res.2.map fun out => (res.1.id, out.1, out.2)) (d + 1)

/-- The `Display` rendering of a pulse ("low" / "high"). -/
def Pulse.display : Pulse → List Char
  | .low => "low".data
  | .high => "high".data

/-- Insert a string into a sorted list of strings. -/
def insertSorted (x : List Char) : List (List Char) → List (List Char)
  | [] => [x]
  | y :: ys => if charsLt x y then x :: y :: ys else y :: insertSorted x ys

/-- Sort a list of strings, as the source's `Vec::sort` does before
joining state fragments (byte order on UTF-8 equals scalar order). -/
def sortChars : List (List Char) → List (List Char)
  | [] => []
  | x :: xs => insertSorted x (sortChars xs)

/-- `Vec::join(sep)`. -/
def joinSep (sep : List Char) : List (List Char) → List Char
  | [] => []
  | [x] => x
  | x :: y :: rest => x ++ sep ++ joinSep sep (y :: rest)

/-- One remembered input rendered as `format!("{}={}", id, pulse)`. -/
def encKV (kv : String × Pulse) : List Char :=
  kv.1.data ++ '=' :: kv.2.display

/-- `Module::state`: the serialized mutable state of one module — empty
for the broadcaster, "on"/"off" for a flip-flop, and for a conjunction
its remembered inputs as "key=pulse" fragments, sorted and joined with
",". -/
def Module.state : Module → List Char
  | .broadcaster _ => []
  | .flipFlop _ _ isOn => if isOn then "on".data else "off".data
  | .conjunction _ _ inputs => joinSep [','] (sortChars (inputs.map encKV))

/-- One entry of the system snapshot: `format!("{}:{}", id, state)`. -/
def Module.entry (md : Module) : List Char :=
  md.id.data ++ ':' :: md.state

/-- The part of a serialized fragment before the first occurrence of the
marker character `c` (proof infrastructure: on separator-free ids this
recovers the id from an "id:state" or "key=pulse" fragment). -/
def keyOfC (c : Char) (e : List Char) : List Char :=
  e.takeWhile fun ch => !(ch == c)

/-- A system-state snapshot: the serialized state string. -/
abbrev StateKey := List Char

/-- `PulseMachine::state`: the "id:state" entry of every module whose id
is not "broadcaster", sorted and joined with ";".  This string is the
memoization key the cycle detector compares. -/
def PulseMachine.stateKey (m : PulseMachine) : StateKey :=
  joinSep [';']
    (sortChars ((m.modules.filter fun md => !(md.id == broadcasterId)).map Module.entry))

/-- The immutable data of one module: id, destinations, variant. -/
def Module.skel (md : Module) : String × List String × Nat :=
  (md.id, md.destinations, md.variantTag)

/-- The immutable data of the whole network. -/
def PulseMachine.skeleton (m : PulseMachine) : List (String × List String × Nat) :=
  m.modules.map Module.skel

/-- Whether a module's mutable state is visible to `stateKey`: it is the
stateless broadcaster variant, or its id differs from "broadcaster". -/
def Module.covered (md : Module) : Bool :=
  md.variantTag == 0 || !(md.id == broadcasterId)

/-- Every stateful module of the network is visible to `stateKey` (no
flip-flop or conjunction is named "broadcaster"). -/
def PulseMachine.stateCovers (m : PulseMachine) : Bool :=
  m.modules.all Module.covered

/-- The separator characters of the state serializer. -/
def seps : List Char := [':', ';', ',', '=']

/-- A name containing no serializer separator. -/
def sepFree (s : String) : Bool :=
  s.data.all fun c => !(seps.contains c)

/-- All keys of a conjunction's remembered-input map are separator-free. -/
def keysOk (inputs : List (String × Pulse)) : Bool :=
  inputs.all fun kv => sepFree kv.1

/-- The remembered-input map is strictly sorted by key — the canonical
representation this embedding maintains for the source's `HashMap`. -/
def keysSorted : List (String × Pulse) → Bool
  | [] => true
  | [_] => true
  | (k₁, _) :: (k₂, v₂) :: rest => strLt k₁ k₂ && keysSorted ((k₂, v₂) :: rest)

/-- A module whose serialized state is unambiguous: a flip-flop's or
conjunction's id is separator-free, and a conjunction's remembered keys
are separator-free and canonically sorted. -/
def Module.goodMod : Module → Bool
  | .broadcaster _ => true
  | .flipFlop i _ _ => sepFree i
  | .conjunction i _ inputs => sepFree i && keysOk inputs && keysSorted inputs

/-- Networks on which the serialized state string is a faithful
memoization key: pairwise-distinct module ids, every stateful module
visible to the snapshot, and unambiguous serialization (`goodMod`) for
every module. -/
def PulseMachine.goodM (m : PulseMachine) : Prop :=
  (m.modules.map Module.id).Nodup ∧ m.stateCovers = true ∧
    m.modules.all Module.goodMod = true

instance (m : PulseMachine) : Decidable m.goodM :=
  inferInstanceAs (Decidable ((m.modules.map Module.id).Nodup ∧ m.stateCovers = true ∧
    m.modules.all Module.goodMod = true))

/-- Index of the first occurrence of a state in `previous_states`
(`iter().position(...)` in the source). -/
def keyIdx (st : StateKey) : List StateKey → Option Nat
  | [] => none
  | s :: rest => if s = st then some 0 else (keyIdx st rest).map (· + 1)

/-- Lookup in `state_cache` (first matching key). -/
def lookupCache (k : StateKey) : List (StateKey × (Nat × Nat)) → Option (Nat × Nat)
  | [] => none
  | e :: rest => if e.1 = k then some e.2 else lookupCache k rest

/-- Sum a list of `(low, high)` tallies with addition modulo `W`
(the source's `reduce(|a, b| (a.0 + b.0, a.1 + b.1)).unwrap_or((0, 0))`
on `u32` pairs). -/
def sumT (W : Nat) (ts : List (Nat × Nat)) : Nat × Nat :=
  ts.foldl (fun a b => ((a.1 + b.1) % W, (a.2 + b.2) % W)) (0, 0)

/-- Reduce a `(low, high)` pair modulo `W` componentwise (the value a
pair of `u32` counters holds for the exact pair, when `W = 2 ^ 32`). -/
def wrapP (W : Nat) (v : Nat × Nat) : Nat × Nat :=
  (v.1 % W, v.2 % W)

/-- The loop body of `PulseMachine::pulses`.  `k` counts the remaining
loop iterations (the source iterates `button_presses` times), `prev` is
`previous_states`, `cache` is `state_cache`, `acc` the running
`(low_pulses, high_pulses)`.  Each iteration snapshots the pre-press
state, simulates the press, and either extrapolates (when the snapshot
matches an earlier one) from the leading, full-cycle and trailing cached
tallies, or records the snapshot and tally and accumulates.  All `u32`
arithmetic is modulo `W`; `state_cache.get(s).unwrap()` is modelled with
the default `(0, 0)` (presence is proved where it matters). -/
def pulsesLoop (W fuel N : Nat) :
    Nat → PulseMachine → List StateKey → List (StateKey × (Nat × Nat)) → Nat × Nat →
    Option (Nat × Nat)
  | 0, _, _, _, acc => some acc
  | k + 1, m, prev, cache, acc =>
    let st := m.stateKey
    match m.handle_button_press fuel with
    | none => none
    | some res =>
      match keyIdx st prev with
      | some j =>
        let loopLen := prev.length - j
        let leading := sumT W ((prev.take j).map fun s => (lookupCache s cache).getD (0, 0))
        let loops := (N - j) / loopLen
        let cyc := sumT W ((prev.drop j).map fun s => (lookupCache s cache).getD (0, 0))
        let loopP := ((cyc.1 * loops) % W, (cyc.2 * loops) % W)
        let trailing := N - j - loopLen * loops
        let trailP :=
          sumT W (((prev.drop j).take trailing).map fun s => (lookupCache s cache).getD (0, 0))
        some (((leading.1 + loopP.1) % W + trailP.1) % W,
              ((leading.2 + loopP.2) % W + trailP.2) % W)
      | none =>
        pulsesLoop W fuel N k res.2 (prev ++ [st])
          (cache ++ [(st, (res.1.1 % W, res.1.2 % W))])
          ((acc.1 + res.1.1 % W) % W, (acc.2 + res.1.2 % W) % W)

/-- `PulseMachine::pulses` with the `u32` modulus left as a parameter. -/
def pulsesW (W fuel : Nat) (m : PulseMachine) (N : Nat) : Option (Nat × Nat) :=
  pulsesLoop W fuel N N m [] [] (0, 0)

/-- The `u32` modulus. -/
def U32 : Nat := 2 ^ 32

/-- `PulseMachine::pulses`: the cycle-aware extrapolator, with the
source's `u32` arithmetic (modulo `2 ^ 32`). -/
def PulseMachine.pulses (fuel : Nat) (m : PulseMachine) (N : Nat) : Option (Nat × Nat) :=
  pulsesW U32 fuel m N

/-- The extrapolator in exact unbounded arithmetic — the idealized
computation the spec describes ("a numeric type wide enough to avoid
overflow"). -/
def pulsesExact (fuel : Nat) (m : PulseMachine) (N : Nat) : Option (Nat × Nat) :=
  pulsesW 0 fuel m N

/-- Brute force: simulate all presses one by one and accumulate the
per-press tallies, with `u32` addition modulo `W`. -/
def bruteW (W fuel : Nat) : Nat → PulseMachine → Nat × Nat → Option (Nat × Nat)
  | 0, _, acc => some acc
  | n + 1, m, acc =>
    match m.handle_button_press fuel with
    | none => none
    | some res => bruteW W fuel n res.2 ((acc.1 + res.1.1 % W) % W, (acc.2 + res.1.2 % W) % W)

/-- Brute-force simulation of `N` presses in `u32` arithmetic. -/
def bruteForce (fuel : Nat) (m : PulseMachine) (N : Nat) : Option (Nat × Nat) :=
  bruteW U32 fuel N m (0, 0)

/-- Sum of `f 0 + ... + f (n - 1)`. -/
def sumTo (f : Nat → Nat) : Nat → Nat
  | 0 => 0
  | n + 1 => sumTo f n + f n

/-! ### The parser `PulseMachine::from_str`

The source works on `&str`; the embedding works on the underlying
character lists, with the same splitting semantics as Rust's
`str::lines`, `str::split` and `str::strip_prefix`. -/

/-- Split a character list at every occurrence of a single character
(every piece is kept, so `n` separators yield `n + 1` pieces). -/
def splitCh (c : Char) : List Char → List (List Char)
  | [] => [[]]
  | x :: xs =>
    if x = c then [] :: splitCh c xs
    else
      match splitCh c xs with
      | [] => [[x]]
      | p :: ps => (x :: p) :: ps

/-- Split at every occurrence of a (non-empty) separator sequence, with
Rust's `str::split` semantics.  The fuel is an upper bound on the number
of characters consumed; `splitSeq` supplies enough. -/
def splitSeqF (sep : List Char) : Nat → List Char → List (List Char)
  | 0, xs => [xs]
  | fuel + 1, xs =>
    match xs with
    | [] => [[]]
    | x :: rest =>
      if sep.isPrefixOf (x :: rest) then
        [] :: splitSeqF sep fuel (List.drop sep.length (x :: rest))
      else
        match splitSeqF sep fuel rest with
        | [] => [[x]]
        | p :: ps => (x :: p) :: ps

/-- Split at every occurrence of a separator sequence. -/
def splitSeq (sep xs : List Char) : List (List Char) :=
  splitSeqF sep (xs.length + 1) xs

/-- Drop one trailing carriage return, as Rust's `str::lines` does for
`\r\n` line endings. -/
def stripCr (l : List Char) : List Char :=
  match l.reverse with
  | '\r' :: rest => rest.reverse
  | _ => l

/-- Rust's `str::lines`: split at newlines, the final line ending being
optional. -/
def rust_lines (s : String) : List (List Char) :=
  let parts := splitCh '\n' s.data
  let parts := if parts.getLast? = some [] then parts.dropLast else parts
  parts.map stripCr

/-- Parse a destination list (`destinations.split(", ")`). -/
def destList (cs : List Char) : List String :=
  (splitSeq ", ".data cs).map String.mk

/-- The `" -> "` separator of a module definition line. -/
def sepArrow : List Char := " -> ".data

/-- One line of `PulseMachine::from_str`: dispatch on the first
characters of the line and parse one module definition.  A flip-flop
starts off; a conjunction starts with no registered inputs (they are
registered by the wiring pass). -/
def parse_line (line : List Char) : Except String Module :=
  if broadcasterId.data.isPrefixOf line then
    if "broadcaster -> ".data.isPrefixOf line then
      .ok (.broadcaster (destList (line.drop "broadcaster -> ".data.length)))
    else .error "Could not parse broadcaster string"
  else
    match line with
    | '%' :: rest =>
      match splitSeq sepArrow rest with
      | [i, d] => .ok (.flipFlop (String.mk i) (destList d) false)
      | _ => .error "Could not parse flip-flip definition"
    | '&' :: rest =>
      match splitSeq sepArrow rest with
      | [i, d] => .ok (.conjunction (String.mk i) (destList d) [])
      | _ => .error "Could not parse conjunction definition"
    | _ => .error "Could not parse line"

/-- `HashMap::insert` on the module map: replace the module with the
same id if present, otherwise append. -/
def insertModule (mods : List Module) (md : Module) : List Module :=
  if mods.any fun m => m.id == md.id then
    mods.map fun m => if m.id = md.id then md else m
  else mods ++ [md]

/-- The line loop of `from_str`: broadcasters and flip-flops go into the
module map at once, conjunctions are collected for the wiring pass. -/
def from_str_go : List (List Char) → List Module → List Module →
    Except String (List Module × List Module)
  | [], mods, conjs => .ok (mods, conjs)
  | line :: rest, mods, conjs =>
    match parse_line line with
    | .error e => .error e
    | .ok md =>
      match md with
      | .conjunction _ _ _ => from_str_go rest mods (conjs ++ [md])
      | _ => from_str_go rest (insertModule mods md) conjs

/-- The conjunction-wiring pass of `from_str`: register as inputs the
modules of the given map whose destination list contains the
conjunction's id, each with initial value `Low`.  Note that the source
runs this against the map built from the broadcaster and flip-flop lines
only — the conjunctions themselves are inserted after this pass. -/
def wire (mods : List Module) : Module → Module
  | .conjunction i d inputs =>
    let feeders := (mods.filter fun md => md.destinations.contains i).map Module.id
    .conjunction i d (feeders.foldl add_input inputs)
  | md => md

/-- `PulseMachine::from_str`: parse every line, then wire every
conjunction against the broadcaster/flip-flop map, then insert the
conjunctions. -/
def PulseMachine.from_str (s : String) : Except String PulseMachine :=
  match from_str_go (rust_lines s) [] [] with
  | .error e => .error e
  | .ok (mods, conjs) =>
    .ok ⟨conjs.foldl (fun ms c => insertModule ms (wire mods c)) mods⟩

/-! ### The press simulator as the spec's state machine (§4.3, §4.2) -/

/-- Spec §4.3: the press-simulator state — the event queue, the tally so
far, and the network. -/
structure PressState where
  queue : List Event
  lows : Nat
  highs : Nat
  network : PulseMachine
deriving DecidableEq, Repr

/-- Spec §4.2 `Network.deliver`: if the event's destination names a
module, invoke its receive, producing new events sourced from
`event.destination`; an unknown destination produces no new events. -/
def deliver (m : PulseMachine) (e : Event) : PulseMachine × List Event :=
  match findModule e.2.1 m.modules with
  | none => (m, [])
  | some md =>
    let res := md.handle_pulse e.2.2 e.1
    (⟨updateModule e.2.1 res.1 m.modules⟩, res.2.map fun out => (e.2.1, out.1, out.2))

/-- Spec §4.3 transition: pop the head of the queue (strict FIFO), tally
its pulse, deliver it, and append every resulting event to the tail. -/
def specStep (s : PressState) : PressState :=
  match s.queue with
  | [] => s
  | e :: rest =>
    let res := deliver s.network e
    { queue := rest ++ res.2
      lows := match e.2.2 with | .low => s.lows + 1 | .high => s.lows
      highs := match e.2.2 with | .low => s.highs | .high => s.highs + 1
      network := res.1 }

/-- Run the spec press machine until the queue is empty (fuel-bounded),
returning the accumulated tally. -/
def specRun : Nat → PressState → Option ((Nat × Nat) × PulseMachine)
  | _, ⟨[], l, h, m⟩ => some ((l, h), m)
  | 0, _ => none
  | fuel + 1, s => specRun fuel (specStep s)

/-- Spec §4.3 initial state: exactly one synthetic event, source
"button", destination the broadcaster's name, pulse `Low`. -/
def specInit (m : PulseMachine) : PressState :=
  ⟨[("button", broadcasterId, Pulse.low)], 0, 0, m⟩

/-! ### Concrete networks used by counterexamples and witnesses -/

/-- The first example network of the source's tests
(`broadcaster -> a, b, c; %a -> b; %b -> c; %c -> inv; &inv -> a`),
after construction. -/
def net1 : PulseMachine :=
  ⟨[.broadcaster ["a", "b", "c"],
    .flipFlop "a" ["b"] false,
    .flipFlop "b" ["c"] false,
    .flipFlop "c" ["inv"] false,
    .conjunction "inv" ["a"] [("c", Pulse.low)]]⟩

/-- A network containing a flip-flop named "broadcaster" (the parser
accepts `%broadcaster -> a`): its mutable state is invisible to the
state snapshot. -/
def ffBroadcasterNet : PulseMachine :=
  ⟨[.flipFlop "broadcaster" ["a"] false, .flipFlop "a" ["x"] false]⟩

/-- A network whose module ids contain serializer separators (the parser
accepts any id without spaces): the flip-flops "a" and "a:off;a" make
distinct system states serialize to the same string. -/
def collisionNet : PulseMachine :=
  ⟨[.broadcaster ["a"],
    .flipFlop "a" ["a:off;a"] false,
    .flipFlop "a:off;a" ["x"] false]⟩

/-- A network definition in which a conjunction (`c`) is fed only by
other conjunctions (`a` and `b`). -/
def c2Input : String := "broadcaster -> a, b\n&a -> c\n&b -> c\n&c -> out"

/-- What `from_str` actually builds from `c2Input`: conjunction `c` has
no registered inputs, because the wiring pass scans only the
broadcaster/flip-flop map. -/
def c2CodeMachine : PulseMachine :=
  ⟨[.broadcaster ["a", "b"],
    .conjunction "a" ["c"] [("broadcaster", Pulse.low)],
    .conjunction "b" ["c"] [("broadcaster", Pulse.low)],
    .conjunction "c" ["out"] []]⟩

/-- The machine the spec's construction contract requires for `c2Input`:
conjunction `c`'s inputs are exactly its feeders `a` and `b`, each
initialized to `Low`. -/
def c2SpecMachine : PulseMachine :=
  ⟨[.broadcaster ["a", "b"],
    .conjunction "a" ["c"] [("broadcaster", Pulse.low)],
    .conjunction "b" ["c"] [("broadcaster", Pulse.low)],
    .conjunction "c" ["out"] [("a", Pulse.low), ("b", Pulse.low)]]⟩

/-- The ids of the modules whose destination list contains `i` — the
input set the spec's invariant prescribes for a conjunction named `i`. -/
def feedersOf (m : PulseMachine) (i : String) : List String :=
  (m.modules.filter fun md => md.destinations.contains i).map Module.id

/-- The registered inputs of the conjunction named `i`, if any. -/
def inputsOf (m : PulseMachine) (i : String) : List (String × Pulse) :=
  match findModule i m.modules with
  | some (.conjunction _ _ ins) => ins
  | _ => []

/-! ### Trace lists (proof infrastructure for the extrapolation proof)

Given the sequence of pre-press snapshots and per-press tallies of a
trace, these build the `previous_states` and `state_cache` contents of
the `pulses` loop after `n` presses starting at press `a`. -/

/-- The snapshots of presses `a, a + 1, ..., a + n - 1`. -/
def keyList (key : Nat → StateKey) (a : Nat) : Nat → List StateKey
  | 0 => []
  | n + 1 => key a :: keyList key (a + 1) n

/-- The cache entries of presses `a, a + 1, ..., a + n - 1`. -/
def cacheList (key : Nat → StateKey) (tal : Nat → Nat × Nat) (a : Nat) :
    Nat → List (StateKey × (Nat × Nat))
  | 0 => []
  | n + 1 => (key a, tal a) :: cacheList key tal (a + 1) n

/-- The tallies of presses `a, a + 1, ..., a + n - 1`. -/
def valList (tal : Nat → Nat × Nat) (a : Nat) : Nat → List (Nat × Nat)
  | 0 => []
  | n + 1 => tal a :: valList tal (a + 1) n

/-! ## Basic lemmas about the module transition function -/

/-- `handle_pulse` preserves a module's immutable data. -/
theorem handle_pulse_skel (md : Module) (p : Pulse) (src : String) :
    ((md.handle_pulse p src).1).skel = md.skel := by
  cases md <;> cases p <;> rfl

/-- `handle_pulse` preserves the module id. -/
theorem handle_pulse_id (md : Module) (p : Pulse) (src : String) :
    ((md.handle_pulse p src).1).id = md.id :=
  congrArg (fun s => s.1) (handle_pulse_skel md p src)

/-- A module found by id in the list has that id. -/
theorem findModule_id (dst : String) :
    ∀ mods md, findModule dst mods = some md → md.id = dst := by
  intro mods
  induction mods with
  | nil => intro md h; exact absurd h (by simp [findModule])
  | cons m rest ih =>
    intro md h
    simp only [findModule] at h
    by_cases hm : m.id = dst
    · rw [if_pos hm] at h; cases h; exact hm
    · rw [if_neg hm] at h; exact ih md h

/-- C10: for every module variant, `handle_pulse` leaves the module's id
and its ordered destination list (and its variant) unchanged — only the
variant's internal state may change — and the broadcaster's
`handle_pulse` changes no state at all. -/
theorem handle_pulse_frame (md : Module) (p : Pulse) (src : String) :
    (((md.handle_pulse p src).1).id = md.id ∧
      ((md.handle_pulse p src).1).destinations = md.destinations ∧
      ((md.handle_pulse p src).1).variantTag = md.variantTag) ∧
    ∀ d : List String, ((Module.broadcaster d).handle_pulse p src).1 = Module.broadcaster d := by
  refine ⟨⟨?_, ?_, ?_⟩, fun d => rfl⟩ <;> cases md <;> cases p <;> rfl

/-! ## Lemmas about the press loop -/

/-- The low tally accumulated by the press loop never decreases. -/
theorem runPress_low_mono :
    ∀ fuel m q low high r, runPress fuel m q low high = some r → low ≤ r.1.1 := by
  intro fuel
  induction fuel with
  | zero =>
    intro m q low high r h
    cases q with
    | nil => cases h; exact Nat.le_refl _
    | cons e rest => exact absurd h (by simp [runPress])
  | succ f ih =>
    intro m q low high r h
    cases q with
    | nil => cases h; exact Nat.le_refl _
    | cons e rest =>
      obtain ⟨src, dst, p⟩ := e
      cases hfind : findModule dst m.modules with
      | none =>
        simp only [runPress, hfind] at h
        cases p with
        | low => exact Nat.le_of_succ_le (ih _ _ _ _ _ h)
        | high => exact ih _ _ _ _ _ h
      | some md =>
        simp only [runPress, hfind] at h
        cases p with
        | low => exact Nat.le_of_succ_le (ih _ _ _ _ _ h)
        | high => exact ih _ _ _ _ _ h

/-- C9: every completed press has tallied at least one low pulse — the
synthetic button pulse itself is dequeued and tallied — even on a
network with no module named "broadcaster". -/
theorem press_low_ge_one (fuel : Nat) (m : PulseMachine) (l h : Nat) (m' : PulseMachine)
    (hp : m.handle_button_press fuel = some ((l, h), m')) : 1 ≤ l := by
  unfold PulseMachine.handle_button_press at hp
  cases fuel with
  | zero => exact absurd hp (by simp [runPress])
  | succ f =>
    cases hfind : findModule broadcasterId m.modules with
    | none =>
      simp only [runPress, hfind, Option.some.injEq, Prod.mk.injEq] at hp
      obtain ⟨⟨h1, h2⟩, h3⟩ := hp
      omega
    | some md =>
      simp only [runPress, hfind] at hp
      exact runPress_low_mono f _ _ _ _ _ hp

/-- C9 witness: the empty network's press tallies `(1, 0)`. -/
theorem press_low_ge_one_witness : 1 ≤ 1 :=
  press_low_ge_one 1 ⟨[]⟩ 1 0 ⟨[]⟩ (by decide)

/-- The dequeue counter follows the press loop: a completed press
dequeued exactly as many events as it added to the two tallies. -/
theorem runPress_pops :
    ∀ fuel m q low high l h m' d, runPress fuel m q low high = some ((l, h), m') →
      ∃ n, runPressPops fuel m q d = some (d + n) ∧ l + h = low + high + n := by
  intro fuel
  induction fuel with
  | zero =>
    intro m q low high l h m' d hp
    cases q with
    | nil =>
      cases hp
      exact ⟨0, rfl, rfl⟩
    | cons e rest => exact absurd hp (by simp [runPress])
  | succ f ih =>
    intro m q low high l h m' d hp
    cases q with
    | nil =>
      cases hp
      exact ⟨0, rfl, rfl⟩
    | cons e rest =>
      obtain ⟨src, dst, p⟩ := e
      cases p <;> cases hfind : findModule dst m.modules <;>
        simp only [runPress, hfind] at hp <;>
        simp only [runPressPops, hfind] <;>
        obtain ⟨n, hn, hsum⟩ := ih _ _ _ _ _ _ _ (d + 1) hp <;>
        refine ⟨n + 1, ?_, by omega⟩ <;>
        rw [hn] <;> congr 1 <;> omega

/-- C7: conservation — for every network and every completed press,
`low + high` equals the number of events dequeued during the press (the
button pulse plus every emitted pulse, dangling sinks included). -/
theorem press_conservation (fuel : Nat) (m : PulseMachine) (l h : Nat) (m' : PulseMachine)
    (hp : m.handle_button_press fuel = some ((l, h), m')) :
    runPressPops fuel m [("button", broadcasterId, Pulse.low)] 0 = some (l + h) := by
  obtain ⟨n, hn, hsum⟩ := runPress_pops fuel m _ 0 0 l h m' 0 hp
  rw [hn]
  have hnlh : n = l + h := by omega
  rw [hnlh]
  simp

/-- C7 witness: a single broadcaster with one dangling destination
dequeues two events and tallies `(2, 0)`. -/
theorem press_conservation_witness :
    runPressPops 5 ⟨[.broadcaster ["a"]]⟩ [("button", broadcasterId, Pulse.low)] 0 =
      some (2 + 0) :=
  press_conservation 5 ⟨[.broadcaster ["a"]]⟩ 2 0 ⟨[.broadcaster ["a"]]⟩ (by decide)

/-! ## The press loop and the spec's state machine (C6) -/

/-- The press loop computes exactly what the spec's queue-driven machine
computes, from any intermediate state. -/
theorem runPress_eq_specRun :
    ∀ fuel q low high m, runPress fuel m q low high = specRun fuel ⟨q, low, high, m⟩ := by
  intro fuel
  induction fuel with
  | zero =>
    intro q low high m
    cases q with
    | nil => rfl
    | cons e rest => rfl
  | succ f ih =>
    intro q low high m
    cases q with
    | nil => rfl
    | cons e rest =>
      obtain ⟨src, dst, p⟩ := e
      cases hfind : findModule dst m.modules with
      | none =>
        simp only [runPress, specRun, specStep, deliver, hfind]
        cases p <;> simp only [List.append_nil] <;> exact ih _ _ _ _
      | some md =>
        have hid : (md.handle_pulse p src).1.id = dst := by
          rw [handle_pulse_id]; exact findModule_id dst m.modules md hfind
        simp only [runPress, specRun, specStep, deliver, hfind, hid]
        cases p <;> exact ih _ _ _ _

/-- C6: one button press is simulated as the spec's queue-driven state
machine — one synthetic `("button", broadcaster, Low)` event enqueued,
strict FIFO pops, each popped pulse tallied, a known destination's
emissions appended at the tail in emission order, an unknown destination
producing no events, terminating exactly when the queue is empty. -/
theorem press_is_spec_machine (fuel : Nat) (m : PulseMachine) :
    m.handle_button_press fuel = specRun fuel (specInit m) :=
  runPress_eq_specRun fuel _ 0 0 m

/-! ## Conjunction input-map lemmas (C3, C8) -/

/-- The keys after an insertion are the old keys plus the inserted key. -/
theorem insertPulse_keys (src : String) (p : Pulse) :
    ∀ inputs (k : String), k ∈ (insertPulse src p inputs).map Prod.fst ↔
      k = src ∨ k ∈ inputs.map Prod.fst := by
  intro inputs
  induction inputs with
  | nil => intro k; simp [insertPulse, eq_comm]
  | cons kv rest ih =>
    intro k
    obtain ⟨k0, v0⟩ := kv
    simp only [insertPulse]
    split_ifs with h1 h2
    · subst h1
      simp only [List.map_cons, List.mem_cons]
      tauto
    · simp only [List.map_cons, List.mem_cons]
    · simp only [List.map_cons, List.mem_cons, ih]
      tauto

/-- An entry with a different key survives an insertion. -/
theorem insertPulse_mem_of_ne (src : String) (p : Pulse) :
    ∀ inputs (x : String) (v : Pulse), (x, v) ∈ inputs → x ≠ src →
      (x, v) ∈ insertPulse src p inputs := by
  intro inputs
  induction inputs with
  | nil => intro x v h _; exact absurd h (List.not_mem_nil _)
  | cons kv rest ih =>
    intro x v hmem hne
    obtain ⟨k0, v0⟩ := kv
    by_cases h1 : src = k0
    · simp only [insertPulse, if_pos h1]
      rcases List.mem_cons.mp hmem with heq | hr
      · exfalso
        apply hne
        cases heq
        exact h1.symm
      · exact List.mem_cons_of_mem _ hr
    · by_cases h2 : strLt src k0
      · simp only [insertPulse, if_neg h1, if_pos h2]
        exact List.mem_cons_of_mem _ hmem
      · simp only [insertPulse, if_neg h1, if_neg h2]
        rcases List.mem_cons.mp hmem with heq | hr
        · rw [heq]; exact List.mem_cons_self _ _
        · exact List.mem_cons_of_mem _ (ih x v hr hne)

/-- The inserted entry is present after an insertion. -/
theorem insertPulse_mem_self (src : String) (p : Pulse) :
    ∀ inputs, (src, p) ∈ insertPulse src p inputs := by
  intro inputs
  induction inputs with
  | nil => exact List.mem_cons_self _ _
  | cons kv rest ih =>
    obtain ⟨k0, v0⟩ := kv
    by_cases h1 : src = k0
    · simp only [insertPulse, if_pos h1]; exact List.mem_cons_self _ _
    · by_cases h2 : strLt src k0
      · simp only [insertPulse, if_neg h1, if_pos h2]; exact List.mem_cons_self _ _
      · simp only [insertPulse, if_neg h1, if_neg h2]; exact List.mem_cons_of_mem _ ih

/-- Inserting a `High` pulse into an all-`High` map keeps it all-`High`. -/
theorem insertPulse_all_high (src : String) :
    ∀ inputs, (∀ kv ∈ inputs, (kv : String × Pulse).2 = Pulse.high) →
      ∀ kv ∈ insertPulse src Pulse.high inputs, (kv : String × Pulse).2 = Pulse.high := by
  intro inputs
  induction inputs with
  | nil =>
    intro _ kv hkv
    rcases List.mem_cons.mp hkv with heq | hr
    · rw [heq]
    · exact absurd hr (List.not_mem_nil _)
  | cons kv0 rest ih =>
    intro hall kv hkv
    obtain ⟨k0, v0⟩ := kv0
    by_cases h1 : src = k0
    · simp only [insertPulse, if_pos h1] at hkv
      rcases List.mem_cons.mp hkv with heq | hr
      · rw [heq]
      · exact hall kv (List.mem_cons_of_mem _ hr)
    · by_cases h2 : strLt src k0
      · simp only [insertPulse, if_neg h1, if_pos h2] at hkv
        rcases List.mem_cons.mp hkv with heq | hr
        · rw [heq]
        · exact hall kv hr
      · simp only [insertPulse, if_neg h1, if_neg h2] at hkv
        rcases List.mem_cons.mp hkv with heq | hr
        · exact hall kv (heq ▸ List.mem_cons_self _ _)
        · exact ih (fun x hx => hall x (List.mem_cons_of_mem _ hx)) kv hr

/-- C3 counterexample: delivering a pulse to a conjunction from a source
that was not registered at construction is not an error — the source is
silently added to the input map, so the input-name set grows. -/
theorem conjunction_unregistered_cex :
    ((Module.conjunction "c" ["d"] [("a", Pulse.low)]).handle_pulse Pulse.high "b").1 =
      Module.conjunction "c" ["d"] [("a", Pulse.low), ("b", Pulse.high)] := by decide

/-- C3 (amended): `Conjunction` receive is total — a pulse from an
unregistered source is silently recorded under that source's key, so the
key set after a receive is the old key set plus the source. -/
theorem conjunction_receive_total (i : String) (dests : List String)
    (inputs : List (String × Pulse)) (p : Pulse) (src : String) :
    ((Module.conjunction i dests inputs).handle_pulse p src).1 =
      Module.conjunction i dests (insertPulse src p inputs) ∧
    ∀ k : String, k ∈ (insertPulse src p inputs).map Prod.fst ↔
      k = src ∨ k ∈ inputs.map Prod.fst :=
  ⟨rfl, insertPulse_keys src p inputs⟩

/-- C3 witness: receiving from the fresh source `"b"` records it. -/
theorem conjunction_receive_total_witness :
    ((Module.conjunction "c" ["d"] [("a", Pulse.low)]).handle_pulse Pulse.high "b").1 =
      Module.conjunction "c" ["d"] (insertPulse "b" Pulse.high [("a", Pulse.low)]) ∧
    ("b" ∈ (insertPulse "b" Pulse.high [("a", Pulse.low)]).map Prod.fst ↔
      "b" = "b" ∨ "b" ∈ [("a", Pulse.low)].map Prod.fst) :=
  ⟨(conjunction_receive_total "c" ["d"] [("a", Pulse.low)] Pulse.high "b").1,
   (conjunction_receive_total "c" ["d"] [("a", Pulse.low)] Pulse.high "b").2 "b"⟩

/-- C8 counterexample: a conjunction whose stored inputs are all `High`
does not emit `Low` on every next received pulse — receiving `Low` from
`"a"` makes it emit `High`. -/
theorem conjunction_law_cex :
    (∀ kv ∈ [("a", Pulse.high)], (kv : String × Pulse).2 = Pulse.high) ∧
    ((Module.conjunction "c" ["d"] [("a", Pulse.high)]).handle_pulse Pulse.low "a").2 ≠
      ["d"].map fun d => (d, Pulse.low) := by
  constructor
  · decide
  · decide

/-- C8 (amended): a conjunction with all stored inputs `High` emits
`Low` on its next received pulse provided that pulse is `High`; and a
conjunction with some stored input `x` at `Low` emits `High` on its next
received pulse unless that pulse is a `High` pulse from `x` itself. -/
theorem conjunction_law (i : String) (dests : List String)
    (inputs : List (String × Pulse)) (p : Pulse) (src : String) :
    ((∀ kv ∈ inputs, (kv : String × Pulse).2 = Pulse.high) → p = Pulse.high →
      ((Module.conjunction i dests inputs).handle_pulse p src).2 =
        dests.map fun d => (d, Pulse.low)) ∧
    (∀ x : String, (x, Pulse.low) ∈ inputs → ¬(src = x ∧ p = Pulse.high) →
      ((Module.conjunction i dests inputs).handle_pulse p src).2 =
        dests.map fun d => (d, Pulse.high)) := by
  constructor
  · intro hall hp
    subst hp
    have hall' : (insertPulse src Pulse.high inputs).all (fun kv => kv.2.isHigh) = true := by
      rw [List.all_eq_true]
      intro kv hkv
      rw [insertPulse_all_high src inputs hall kv hkv]
      rfl
    simp only [Module.handle_pulse, hall', if_true]
  · intro x hx hnot
    have hlow : ∃ kv ∈ insertPulse src p inputs, (kv : String × Pulse).2 = Pulse.low := by
      cases p with
      | low => exact ⟨(src, Pulse.low), insertPulse_mem_self src Pulse.low inputs, rfl⟩
      | high =>
        have hne : x ≠ src := fun h => hnot ⟨h.symm, rfl⟩
        exact ⟨(x, Pulse.low), insertPulse_mem_of_ne src Pulse.high inputs x Pulse.low hx hne, rfl⟩
    have hall' : (insertPulse src p inputs).all (fun kv => kv.2.isHigh) = false := by
      obtain ⟨kv, hkv, hkv2⟩ := hlow
      rw [Bool.eq_false_iff]
      intro hall
      have := List.all_eq_true.mp hall kv hkv
      rw [hkv2] at this
      exact Bool.false_ne_true this
    simp only [Module.handle_pulse, hall', Bool.false_eq_true, if_false]

/-- C8 witness: the two amended conclusions at concrete inputs — an
all-`High` conjunction receiving `High`, and a conjunction with `"a"`
stored `Low` receiving `High` from `"b"`. -/
theorem conjunction_law_witness :
    ((Module.conjunction "c" ["d"] [("a", Pulse.high)]).handle_pulse Pulse.high "a").2 =
      ["d"].map (fun d => (d, Pulse.low)) ∧
    ((Module.conjunction "c" ["d"] [("a", Pulse.low), ("b", Pulse.high)]).handle_pulse
        Pulse.high "b").2 = ["d"].map fun d => (d, Pulse.high) :=
  ⟨(conjunction_law "c" ["d"] [("a", Pulse.high)] Pulse.high "a").1 (by decide) rfl,
   (conjunction_law "c" ["d"] [("a", Pulse.low), ("b", Pulse.high)] Pulse.high "b").2 "a"
     (by decide) (by decide)⟩

/-! ## Construction edge cases (C4) and the wiring defect (C2) -/

/-- C4 counterexample: the empty network definition constructs
successfully (no "network has no modules" error), and a button press on
the resulting broadcaster-less network runs silently, tallying `(1, 0)`. -/
theorem construction_empty_cex :
    PulseMachine.from_str "" = .ok ⟨[]⟩ ∧
    PulseMachine.handle_button_press 1 ⟨[]⟩ = some ((1, 0), ⟨[]⟩) := by
  constructor
  · decide
  · decide

/-- C4 (amended): construction does not check for emptiness or for a
broadcaster — the empty input yields the empty network, and on any
network with no module named "broadcaster" a press treats the button
event as addressed to a dangling sink: it completes silently with tally
`(1, 0)` and does not change the network. -/
theorem construction_no_broadcaster :
    PulseMachine.from_str "" = .ok ⟨[]⟩ ∧
    ∀ (m : PulseMachine) (fuel : Nat), findModule broadcasterId m.modules = none →
      1 ≤ fuel → m.handle_button_press fuel = some ((1, 0), m) := by
  constructor
  · decide
  · intro m fuel hfind hfuel
    cases fuel with
    | zero => exact absurd hfuel (by decide)
    | succ f =>
      simp only [PulseMachine.handle_button_press, runPress, hfind]

/-- C4 witness: the empty network has no broadcaster and its press
tallies `(1, 0)`. -/
theorem construction_no_broadcaster_witness :
    PulseMachine.handle_button_press 1 ⟨[]⟩ = some ((1, 0), ⟨[]⟩) :=
  construction_no_broadcaster.2 ⟨[]⟩ 1 rfl (by decide)

/-- C2: the wiring defect.  On `c2Input`, where conjunction `c` is fed
exactly by the conjunctions `a` and `b`, `from_str` succeeds but
registers no inputs at all for `c` (the wiring pass scans only the
broadcaster/flip-flop map), and the first press consequently tallies
`(5, 2)` where the spec-prescribed wiring (inputs `a`, `b` at `Low`)
tallies `(4, 3)`. -/
theorem conjunction_wiring_defect :
    PulseMachine.from_str c2Input = .ok c2CodeMachine ∧
    feedersOf c2CodeMachine "c" = ["a", "b"] ∧
    inputsOf c2CodeMachine "c" = [] ∧
    (c2CodeMachine.handle_button_press 20).map Prod.fst = some (5, 2) ∧
    (c2SpecMachine.handle_button_press 20).map Prod.fst = some (4, 3) := by
  refine ⟨?_, ?_, ?_, ?_, ?_⟩ <;> decide

/-! ## The extrapolator's u32 arithmetic (C5) -/

/-- Looking up in a componentwise-wrapped cache wraps the lookup. -/
theorem lookupCache_map_wrap (W : Nat) (k : StateKey) :
    ∀ cache, lookupCache k (cache.map fun e => (e.1, wrapP W e.2)) =
      (lookupCache k cache).map (wrapP W) := by
  intro cache
  induction cache with
  | nil => rfl
  | cons e rest ih =>
    simp only [List.map_cons, lookupCache]
    by_cases he : e.1 = k
    · rw [if_pos he, if_pos he]; rfl
    · rw [if_neg he, if_neg he]; exact ih

/-- The wrapped tally sum, with a generalized accumulator. -/
theorem sumT_go (W : Nat) :
    ∀ (ts : List (Nat × Nat)) (a b : Nat),
      ts.foldl (fun x y => ((x.1 + y.1) % W, (x.2 + y.2) % W)) (a % W, b % W) =
        ((a + (ts.map Prod.fst).sum) % W, (b + (ts.map Prod.snd).sum) % W) := by
  intro ts
  induction ts with
  | nil => intro a b; simp
  | cons t rest ih =>
    intro a b
    simp only [List.foldl_cons, List.map_cons, List.sum_cons]
    rw [Nat.mod_add_mod, Nat.mod_add_mod, ih (a + t.1) (b + t.2)]
    simp [Nat.add_assoc]

/-- `sumT` computes the componentwise sums modulo `W`. -/
theorem sumT_eq (W : Nat) (ts : List (Nat × Nat)) :
    sumT W ts = (((ts.map Prod.fst).sum) % W, ((ts.map Prod.snd).sum) % W) := by
  have h0 : ((0 : Nat), (0 : Nat)) = ((0 : Nat) % W, (0 : Nat) % W) := by simp
  rw [sumT, h0, sumT_go]
  simp

/-- Summing wrapped values and wrapping sums agree. -/
theorem sum_map_mod (W : Nat) : ∀ l : List Nat, ((l.map (· % W)).sum) % W = l.sum % W := by
  intro l
  induction l with
  | nil => rfl
  | cons x rest ih =>
    simp only [List.map_cons, List.sum_cons]
    rw [Nat.mod_add_mod, Nat.add_mod x, ih, ← Nat.add_mod]

/-- The cached-tally lists read back from a wrapped cache are the
wrapped exact lists. -/
theorem vals_map_wrap (W : Nat) (ks : List StateKey) (cache : List (StateKey × (Nat × Nat))) :
    (ks.map fun s => (lookupCache s (cache.map fun e => (e.1, wrapP W e.2))).getD (0, 0)) =
      (ks.map fun s => (lookupCache s cache).getD (0, 0)).map (wrapP W) := by
  induction ks with
  | nil => rfl
  | cons s rest ih =>
    simp only [List.map_cons]
    rw [ih]
    congr 1
    rw [lookupCache_map_wrap]
    cases lookupCache s cache with
    | none => simp [wrapP]
    | some v => rfl

/-- The wrapped sum over a wrapped value list is the wrapped exact sum. -/
theorem sumT_map_wrap (W : Nat) (l : List (Nat × Nat)) :
    sumT W (l.map (wrapP W)) = wrapP W ((l.map Prod.fst).sum, (l.map Prod.snd).sum) := by
  rw [sumT_eq]
  simp only [List.map_map, wrapP]
  have h1 : (l.map fun v => (wrapP W v).1) = (l.map Prod.fst).map (· % W) := by
    simp [wrapP, Function.comp]
  have h2 : (l.map fun v => (wrapP W v).2) = (l.map Prod.snd).map (· % W) := by
    simp [wrapP, Function.comp]
  rw [show (Prod.fst ∘ wrapP W) = fun v => (wrapP W v).1 from rfl,
      show (Prod.snd ∘ wrapP W) = fun v => (wrapP W v).2 from rfl, h1, h2,
      sum_map_mod, sum_map_mod]

/-- The extrapolation formula modulo `W` equals the exact formula
reduced modulo `W`. -/
theorem wrap_formula (W A B C q : Nat) :
    ((A % W + B % W * q % W) % W + C % W) % W = (A + B * q + C) % W := by
  have h1 : (A % W + B % W * q % W) % W = (A + B * q) % W := by
    rw [Nat.mod_mul_mod, Nat.mod_add_mod, Nat.add_mod_mod]
  rw [h1, Nat.mod_add_mod, Nat.add_mod_mod]

/-- The `pulses` loop with `u32` arithmetic modulo `W` computes the
exact-arithmetic loop's result reduced modulo `W`. -/
theorem pulsesLoop_wrap (W fuel N : Nat) :
    ∀ k m prev cache acc,
      pulsesLoop W fuel N k m prev (cache.map fun e => (e.1, wrapP W e.2)) (wrapP W acc) =
        (pulsesLoop 0 fuel N k m prev cache acc).map (wrapP W) := by
  intro k
  induction k with
  | zero => intro m prev cache acc; rfl
  | succ k ih =>
    intro m prev cache acc
    cases hp : m.handle_button_press fuel with
    | none => simp [pulsesLoop, hp]
    | some res =>
      cases hidx : keyIdx m.stateKey prev with
      | some j =>
        simp only [pulsesLoop, hp, hidx, Option.map_some']
        rw [vals_map_wrap, vals_map_wrap, vals_map_wrap, sumT_map_wrap, sumT_map_wrap,
          sumT_map_wrap]
        rw [sumT_eq 0, sumT_eq 0, sumT_eq 0]
        simp only [wrapP, Nat.mod_zero, Option.some.injEq, Prod.mk.injEq]
        exact ⟨wrap_formula W _ _ _ _, wrap_formula W _ _ _ _⟩
      | none =>
        simp only [pulsesLoop, hp, hidx]
        have hcache :
            (cache.map fun e => (e.1, wrapP W e.2)) ++
              [(m.stateKey, (res.1.1 % W, res.1.2 % W))] =
            (cache ++ [(m.stateKey, (res.1.1 % 0, res.1.2 % 0))]).map
              fun e => (e.1, wrapP W e.2) := by
          simp [wrapP, Nat.mod_zero]
        have hacc :
            (((wrapP W acc).1 + res.1.1 % W) % W, ((wrapP W acc).2 + res.1.2 % W) % W) =
            wrapP W ((acc.1 + res.1.1 % 0) % 0, (acc.2 + res.1.2 % 0) % 0) := by
          simp [wrapP, Nat.mod_zero, Nat.mod_add_mod, Nat.add_mod_mod]
        rw [hcache, hacc]
        exact ih _ _ _ _

/-- `pulses` in `u32` arithmetic is the exact extrapolation reduced
modulo `W`. -/
theorem pulses_wrap (W fuel : Nat) (m : PulseMachine) (N : Nat) :
    pulsesW W fuel m N = (pulsesW 0 fuel m N).map (wrapP W) := by
  have h := pulsesLoop_wrap W fuel N N m [] [] (0, 0)
  simpa [wrapP] using h

/-- C5 counterexample: the extrapolation arithmetic does overflow — on
the source's first test network with `N = 2 ^ 29` presses the exact low
count is `2 ^ 32`, which does not fit in 32 bits, and `pulses` returns a
low count of `0`. -/
theorem pulses_overflow_cex :
    PulseMachine.pulses 20 net1 (2 ^ 29) = some (0, 2 ^ 31) ∧
    pulsesExact 20 net1 (2 ^ 29) = some (2 ^ 32, 2 ^ 31) ∧
    PulseMachine.pulses 20 net1 (2 ^ 29) ≠ pulsesExact 20 net1 (2 ^ 29) := by
  refine ⟨?_, ?_, ?_⟩ <;> decide

/-- C5 (amended): the extrapolator returns 32-bit (`u32`) counts, not
64-bit-or-wider ones — its arithmetic, in particular
`cycle_sum * full_cycles`, wraps modulo `2 ^ 32`: the returned pair is
exactly the ideal unbounded-arithmetic result reduced modulo `2 ^ 32`. -/
theorem pulses_is_u32_wrapped (fuel : Nat) (m : PulseMachine) (N : Nat) :
    m.pulses fuel N = (pulsesExact fuel m N).map (wrapP U32) :=
  pulses_wrap U32 fuel m N

/-! ## Trace-list and finite-sum lemmas (for the extrapolation proof) -/

theorem keyList_snoc (key : Nat → StateKey) :
    ∀ n a, keyList key a (n + 1) = keyList key a n ++ [key (a + n)] := by
  intro n
  induction n with
  | zero => intro a; simp [keyList]
  | succ n ih =>
    intro a
    calc keyList key a (n + 2) = key a :: keyList key (a + 1) (n + 1) := rfl
      _ = key a :: (keyList key (a + 1) n ++ [key (a + 1 + n)]) := by rw [ih]
      _ = keyList key a (n + 1) ++ [key (a + (n + 1))] := by
          simp [keyList, Nat.add_assoc, Nat.add_comm 1 n]

theorem cacheList_snoc (key : Nat → StateKey) (tal : Nat → Nat × Nat) :
    ∀ n a, cacheList key tal a (n + 1) =
      cacheList key tal a n ++ [(key (a + n), tal (a + n))] := by
  intro n
  induction n with
  | zero => intro a; simp [cacheList]
  | succ n ih =>
    intro a
    calc cacheList key tal a (n + 2)
        = (key a, tal a) :: cacheList key tal (a + 1) (n + 1) := rfl
      _ = (key a, tal a) :: (cacheList key tal (a + 1) n ++
            [(key (a + 1 + n), tal (a + 1 + n))]) := by rw [ih]
      _ = cacheList key tal a (n + 1) ++ [(key (a + (n + 1)), tal (a + (n + 1)))] := by
          simp [cacheList, Nat.add_assoc, Nat.add_comm 1 n]

theorem keyList_length (key : Nat → StateKey) :
    ∀ n a, (keyList key a n).length = n := by
  intro n
  induction n with
  | zero => intro a; rfl
  | succ n ih => intro a; simp [keyList, ih]

theorem keyList_take (key : Nat → StateKey) :
    ∀ n a j, j ≤ n → (keyList key a n).take j = keyList key a j := by
  intro n
  induction n with
  | zero =>
    intro a j hj
    have : j = 0 := by omega
    subst this
    rfl
  | succ n ih =>
    intro a j hj
    cases j with
    | zero => rfl
    | succ j => simp [keyList, List.take_succ_cons, ih (a + 1) j (by omega)]

theorem keyList_drop (key : Nat → StateKey) :
    ∀ n a j, j ≤ n → (keyList key a n).drop j = keyList key (a + j) (n - j) := by
  intro n
  induction n with
  | zero =>
    intro a j hj
    have : j = 0 := by omega
    subst this
    rfl
  | succ n ih =>
    intro a j hj
    cases j with
    | zero => simp [keyList]
    | succ j =>
      have h1 : a + 1 + j = a + (j + 1) := by omega
      have h2 : n - j = n + 1 - (j + 1) := by omega
      calc (keyList key a (n + 1)).drop (j + 1)
          = (keyList key (a + 1) n).drop j := by simp [keyList]
        _ = keyList key (a + 1 + j) (n - j) := ih (a + 1) j (by omega)
        _ = keyList key (a + (j + 1)) (n + 1 - (j + 1)) := by rw [h1, h2]

theorem keyIdx_keyList_some (key : Nat → StateKey) (st : StateKey) :
    ∀ n a j, keyIdx st (keyList key a n) = some j → j < n ∧ key (a + j) = st := by
  intro n
  induction n with
  | zero => intro a j h; exact absurd h (by simp [keyList, keyIdx])
  | succ n ih =>
    intro a j h
    simp only [keyList, keyIdx] at h
    by_cases hk : key a = st
    · rw [if_pos hk] at h
      cases h
      exact ⟨by omega, by simpa using hk⟩
    · rw [if_neg hk] at h
      cases hidx : keyIdx st (keyList key (a + 1) n) with
      | none => rw [hidx] at h; cases h
      | some j' =>
        rw [hidx] at h
        simp only [Option.map_some', Option.some.injEq] at h
        cases h
        obtain ⟨hj', hkey⟩ := ih (a + 1) j' hidx
        exact ⟨by omega, by rw [show a + (j' + 1) = a + 1 + j' by omega]; exact hkey⟩

theorem keyIdx_keyList_none (key : Nat → StateKey) (st : StateKey) :
    ∀ n a, keyIdx st (keyList key a n) = none → ∀ d, d < n → key (a + d) ≠ st := by
  intro n
  induction n with
  | zero => intro a _ d hd; omega
  | succ n ih =>
    intro a h d hd
    simp only [keyList, keyIdx] at h
    by_cases hk : key a = st
    · rw [if_pos hk] at h; cases h
    · rw [if_neg hk] at h
      cases d with
      | zero => simpa using hk
      | succ d =>
        cases hidx : keyIdx st (keyList key (a + 1) n) with
        | none =>
          have := ih (a + 1) hidx d (by omega)
          rw [show a + (d + 1) = a + 1 + d by omega]
          exact this
        | some j' => rw [hidx] at h; cases h

theorem lookupCache_cacheList (key : Nat → StateKey) (tal : Nat → Nat × Nat) (t : Nat)
    (hdist : ∀ p q, p < q → q < t → key p ≠ key q) :
    ∀ n a i, a + n ≤ t → a ≤ i → i < a + n →
      lookupCache (key i) (cacheList key tal a n) = some (tal i) := by
  intro n
  induction n with
  | zero => intro a i _ _ _; omega
  | succ n ih =>
    intro a i hn h1 h2
    simp only [cacheList, lookupCache]
    by_cases hai : a = i
    · subst hai
      rw [if_pos rfl]
    · have hne : key a ≠ key i := hdist a i (by omega) (by omega)
      rw [if_neg hne]
      exact ih (a + 1) i (by omega) (by omega) (by omega)

theorem keyList_lookup (key : Nat → StateKey) (tal : Nat → Nat × Nat) (t : Nat)
    (hdist : ∀ p q, p < q → q < t → key p ≠ key q) :
    ∀ n a, a + n ≤ t →
      ((keyList key a n).map fun s => (lookupCache s (cacheList key tal 0 t)).getD (0, 0)) =
        valList tal a n := by
  intro n
  induction n with
  | zero => intro a _; rfl
  | succ n ih =>
    intro a hn
    simp only [keyList, valList, List.map_cons]
    rw [lookupCache_cacheList key tal t hdist t 0 a (by omega) (by omega) (by omega)]
    rw [ih (a + 1) (by omega)]
    rfl

theorem sumTo_congr (f g : Nat → Nat) : ∀ n, (∀ d, d < n → f d = g d) → sumTo f n = sumTo g n := by
  intro n
  induction n with
  | zero => intro _; rfl
  | succ n ih =>
    intro h
    simp only [sumTo]
    rw [ih fun d hd => h d (by omega), h n (by omega)]

theorem sumTo_peel (f : Nat → Nat) :
    ∀ n, sumTo f (n + 1) = f 0 + sumTo (fun i => f (i + 1)) n := by
  intro n
  induction n with
  | zero => simp [sumTo]
  | succ n ih =>
    calc sumTo f (n + 2) = sumTo f (n + 1) + f (n + 1) := rfl
      _ = f 0 + sumTo (fun i => f (i + 1)) n + f (n + 1) := by rw [ih]
      _ = f 0 + sumTo (fun i => f (i + 1)) (n + 1) := by simp [sumTo, Nat.add_assoc]

theorem sumTo_add (f : Nat → Nat) (a : Nat) :
    ∀ b, sumTo f (a + b) = sumTo f a + sumTo (fun d => f (a + d)) b := by
  intro b
  induction b with
  | zero => simp [sumTo]
  | succ b ih =>
    calc sumTo f (a + (b + 1)) = sumTo f (a + b) + f (a + b) := rfl
      _ = sumTo f a + sumTo (fun d => f (a + d)) b + f (a + b) := by rw [ih]
      _ = sumTo f a + sumTo (fun d => f (a + d)) (b + 1) := by simp [sumTo, Nat.add_assoc]

theorem sumTo_mod (W : Nat) (f : Nat → Nat) :
    ∀ n, (sumTo (fun d => f d % W) n) % W = sumTo f n % W := by
  intro n
  induction n with
  | zero => rfl
  | succ n ih =>
    simp only [sumTo]
    rw [Nat.add_mod, ih, Nat.mod_mod_of_dvd _ dvd_rfl, ← Nat.add_mod]

/-- Sum of a function that is `L`-periodic on `[0, q * L + r)`. -/
theorem sum_periodic (g : Nat → Nat) (L r : Nat) :
    ∀ q, (∀ d, d + L < q * L + r → g (d + L) = g d) →
      sumTo g (q * L + r) = q * sumTo g L + sumTo g r := by
  intro q
  induction q with
  | zero => intro _; simp
  | succ q ih =>
    intro hper
    have hsplit : (q + 1) * L + r = L + (q * L + r) := by ring
    rw [hsplit, sumTo_add g L (q * L + r)]
    have hshift : sumTo (fun d => g (L + d)) (q * L + r) = sumTo g (q * L + r) := by
      apply sumTo_congr
      intro d hd
      rw [Nat.add_comm L d]
      exact hper d (by omega)
    rw [hshift, ih fun d hd => hper d (by omega)]
    ring

theorem valList_fst_sum (tal : Nat → Nat × Nat) :
    ∀ n a, ((valList tal a n).map Prod.fst).sum = sumTo (fun d => (tal (a + d)).1) n := by
  intro n
  induction n with
  | zero => intro a; rfl
  | succ n ih =>
    intro a
    simp only [valList, List.map_cons, List.sum_cons]
    rw [ih (a + 1)]
    simp only [sumTo_peel, Nat.add_zero]
    congr 1
    apply sumTo_congr
    intro d _
    rw [show a + 1 + d = a + (d + 1) by omega]

theorem valList_snd_sum (tal : Nat → Nat × Nat) :
    ∀ n a, ((valList tal a n).map Prod.snd).sum = sumTo (fun d => (tal (a + d)).2) n := by
  intro n
  induction n with
  | zero => intro a; rfl
  | succ n ih =>
    intro a
    simp only [valList, List.map_cons, List.sum_cons]
    rw [ih (a + 1)]
    simp only [sumTo_peel, Nat.add_zero]
    congr 1
    apply sumTo_congr
    intro d _
    rw [show a + 1 + d = a + (d + 1) by omega]

/-! ## Skeleton preservation and state-key injectivity -/

/-- Replacing the found module with a skeleton-equal one preserves the
skeleton list. -/
theorem updateModule_skel (dst : String) (newMd : Module) :
    ∀ mods md, findModule dst mods = some md → newMd.skel = md.skel →
      (updateModule dst newMd mods).map Module.skel = mods.map Module.skel := by
  intro mods
  induction mods with
  | nil => intro md h _; exact absurd h (by simp [findModule])
  | cons m rest ih =>
    intro md h hsk
    simp only [findModule] at h
    by_cases hm : m.id = dst
    · rw [if_pos hm] at h
      cases h
      simp only [updateModule, if_pos hm, List.map_cons, hsk]
    · rw [if_neg hm] at h
      simp only [updateModule, if_neg hm, List.map_cons]
      rw [ih md h hsk]

/-- The press loop preserves the network's skeleton. -/
theorem runPress_skeleton :
    ∀ fuel m q low high r, runPress fuel m q low high = some r →
      r.2.skeleton = m.skeleton := by
  intro fuel
  induction fuel with
  | zero =>
    intro m q low high r h
    cases q with
    | nil => cases h; rfl
    | cons e rest => exact absurd h (by simp [runPress])
  | succ f ih =>
    intro m q low high r h
    cases q with
    | nil => cases h; rfl
    | cons e rest =>
      obtain ⟨src, dst, p⟩ := e
      cases hfind : findModule dst m.modules with
      | none =>
        simp only [runPress, hfind] at h
        exact ih _ _ _ _ _ h
      | some md =>
        simp only [runPress, hfind] at h
        rw [ih _ _ _ _ _ h]
        show (updateModule dst (md.handle_pulse p src).1 m.modules).map Module.skel =
          m.modules.map Module.skel
        exact updateModule_skel dst _ m.modules md hfind (handle_pulse_skel md p src)

/-- A completed button press preserves the network's skeleton. -/
theorem press_skeleton (fuel : Nat) (m : PulseMachine) (r : (Nat × Nat) × PulseMachine)
    (h : m.handle_button_press fuel = some r) : r.2.skeleton = m.skeleton :=
  runPress_skeleton fuel m _ 0 0 r h

/-- Coveredness of a module list only depends on the skeletons. -/
theorem all_covered_eq_skel :
    ∀ l : List Module, l.all Module.covered =
      (l.map Module.skel).all fun e => (e.2.2 == 0) || !(e.1 == broadcasterId) := by
  intro l
  induction l with
  | nil => rfl
  | cons md rest ih =>
    simp only [List.map_cons, List.all_cons, ih]
    rfl

/-- `stateCovers` only depends on the skeleton. -/
theorem stateCovers_eq_skel (m : PulseMachine) :
    m.stateCovers = m.skeleton.all fun e => (e.2.2 == 0) || !(e.1 == broadcasterId) :=
  all_covered_eq_skel m.modules

/-! ## Order lemmas for the byte-wise string order -/

/-- The string order is irreflexive. -/
theorem charsLt_irrefl : ∀ l : List Char, charsLt l l = false := by
  intro l
  induction l with
  | nil => rfl
  | cons a as ih =>
    simp only [charsLt]
    rw [if_neg (show ¬a.val < a.val from Nat.lt_irrefl a.val.toNat),
        if_neg (show ¬a.val < a.val from Nat.lt_irrefl a.val.toNat)]
    exact ih

/-- The string order is asymmetric. -/
theorem charsLt_asymm : ∀ l₁ l₂ : List Char, charsLt l₁ l₂ = true → charsLt l₂ l₁ = false := by
  intro l₁
  induction l₁ with
  | nil =>
    intro l₂ h
    cases l₂ with
    | nil => simp [charsLt] at h
    | cons b bs => rfl
  | cons a as ih =>
    intro l₂ h
    cases l₂ with
    | nil => simp [charsLt] at h
    | cons b bs =>
      simp only [charsLt] at h ⊢
      by_cases hab : a.val < b.val
      · rw [if_neg (show ¬b.val < a.val from Nat.lt_asymm hab), if_pos hab]
      · by_cases hba : b.val < a.val
        · rw [if_neg hab, if_pos hba] at h
          exact absurd h (by decide)
        · rw [if_neg hab, if_neg hba] at h
          rw [if_neg hba, if_neg hab]
          exact ih bs h

/-- The string order is transitive. -/
theorem charsLt_trans : ∀ l₁ l₂ l₃ : List Char,
    charsLt l₁ l₂ = true → charsLt l₂ l₃ = true → charsLt l₁ l₃ = true := by
  intro l₁
  induction l₁ with
  | nil =>
    intro l₂ l₃ h12 h23
    cases l₂ with
    | nil => simp [charsLt] at h12
    | cons b bs =>
      cases l₃ with
      | nil => simp [charsLt] at h23
      | cons c cs => rfl
  | cons a as ih =>
    intro l₂ l₃ h12 h23
    cases l₂ with
    | nil => simp [charsLt] at h12
    | cons b bs =>
      cases l₃ with
      | nil => simp [charsLt] at h23
      | cons c cs =>
        simp only [charsLt] at h12 h23 ⊢
        by_cases hab : a.val < b.val
        · by_cases hbc : b.val < c.val
          · rw [if_pos (show a.val < c.val from Nat.lt_trans (show a.val.toNat < b.val.toNat from hab) hbc)]
          · by_cases hcb : c.val < b.val
            · rw [if_neg hbc, if_pos hcb] at h23
              exact absurd h23 (by decide)
            · have hac : a.val.toNat < c.val.toNat := by
                have t1 : a.val.toNat < b.val.toNat := hab
                have t2 : ¬b.val.toNat < c.val.toNat := hbc
                have t3 : ¬c.val.toNat < b.val.toNat := hcb
                omega
              rw [if_pos (show a.val < c.val from hac)]
        · by_cases hba : b.val < a.val
          · rw [if_neg hab, if_pos hba] at h12
            exact absurd h12 (by decide)
          · rw [if_neg hab, if_neg hba] at h12
            by_cases hbc : b.val < c.val
            · have hac : a.val.toNat < c.val.toNat := by
                have t1 : ¬a.val.toNat < b.val.toNat := hab
                have t2 : ¬b.val.toNat < a.val.toNat := hba
                have t3 : b.val.toNat < c.val.toNat := hbc
                omega
              rw [if_pos (show a.val < c.val from hac)]
            · by_cases hcb : c.val < b.val
              · rw [if_neg hbc, if_pos hcb] at h23
                exact absurd h23 (by decide)
              · rw [if_neg hbc, if_neg hcb] at h23
                have t1 : ¬a.val.toNat < b.val.toNat := hab
                have t2 : ¬b.val.toNat < a.val.toNat := hba
                have t3 : ¬b.val.toNat < c.val.toNat := hbc
                have t4 : ¬c.val.toNat < b.val.toNat := hcb
                have hac : ¬a.val.toNat < c.val.toNat := by omega
                have hca : ¬c.val.toNat < a.val.toNat := by omega
                rw [if_neg (show ¬a.val < c.val from hac),
                    if_neg (show ¬c.val < a.val from hca)]
                exact ih bs cs h12 h23

/-- Two strings neither of which precedes the other are equal. -/
theorem charsLt_eq_of_not : ∀ l₁ l₂ : List Char,
    charsLt l₁ l₂ = false → charsLt l₂ l₁ = false → l₁ = l₂ := by
  intro l₁
  induction l₁ with
  | nil =>
    intro l₂ h12 _
    cases l₂ with
    | nil => rfl
    | cons b bs => simp [charsLt] at h12
  | cons a as ih =>
    intro l₂ h12 h21
    cases l₂ with
    | nil => simp [charsLt] at h21
    | cons b bs =>
      simp only [charsLt] at h12 h21
      by_cases hab : a.val < b.val
      · rw [if_pos hab] at h12
        exact absurd h12 (by decide)
      · by_cases hba : b.val < a.val
        · rw [if_pos hba] at h21
          exact absurd h21 (by decide)
        · rw [if_neg hab, if_neg hba] at h12
          rw [if_neg hba, if_neg hab] at h21
          have hchar : a = b := by
            apply Char.eq_of_val_eq
            apply UInt32.ext
            have t1 : ¬a.val.toNat < b.val.toNat := hab
            have t2 : ¬b.val.toNat < a.val.toNat := hba
            omega
          rw [hchar, ih bs h12 h21]

/-! ## Marker splitting, joining and sorting -/

/-- Appended lists split uniquely at a marker character absent from both
prefixes. -/
theorem marker_append_inj (c : Char) :
    ∀ (a₁ a₂ r₁ r₂ : List Char), c ∉ a₁ → c ∉ a₂ →
      a₁ ++ c :: r₁ = a₂ ++ c :: r₂ → a₁ = a₂ ∧ r₁ = r₂ := by
  intro a₁
  induction a₁ with
  | nil =>
    intro a₂ r₁ r₂ _ h₂ heq
    cases a₂ with
    | nil =>
      simp only [List.nil_append, List.cons.injEq] at heq
      exact ⟨rfl, heq.2⟩
    | cons x xs =>
      simp only [List.nil_append, List.cons_append, List.cons.injEq] at heq
      exfalso
      apply h₂
      rw [heq.1]
      exact List.mem_cons_self x xs
  | cons y ys ih =>
    intro a₂ r₁ r₂ h₁ h₂ heq
    cases a₂ with
    | nil =>
      simp only [List.cons_append, List.nil_append, List.cons.injEq] at heq
      exfalso
      apply h₁
      rw [← heq.1]
      exact List.mem_cons_self y ys
    | cons x xs =>
      simp only [List.cons_append, List.cons.injEq] at heq
      obtain ⟨hyx, hrest⟩ := heq
      subst hyx
      have hr := ih xs r₁ r₂ (fun hm => h₁ (List.mem_cons_of_mem _ hm))
        (fun hm => h₂ (List.mem_cons_of_mem _ hm)) hrest
      exact ⟨by rw [hr.1], hr.2⟩

/-- Taking up to the marker recovers the marker-free prefix. -/
theorem takeWhile_marker (c : Char) :
    ∀ (a r : List Char), c ∉ a →
      (a ++ c :: r).takeWhile (fun ch => !(ch == c)) = a := by
  intro a
  induction a with
  | nil =>
    intro r _
    rw [List.nil_append]
    refine List.takeWhile_cons_of_neg ?_
    simp
  | cons y ys ih =>
    intro r hmem
    have hy : ¬y = c := fun h => hmem (by rw [h]; exact List.mem_cons_self c ys)
    rw [List.cons_append]
    rw [List.takeWhile_cons_of_pos (by simp [hy])]
    rw [ih r (fun hm => hmem (List.mem_cons_of_mem _ hm))]

/-- Unfolding of `joinSep` on a list of two or more fragments. -/
theorem joinSep_cons₂ (c : Char) (x y : List Char) (rest : List (List Char)) :
    joinSep [c] (x :: y :: rest) = x ++ c :: joinSep [c] (y :: rest) := by
  rw [show joinSep [c] (x :: y :: rest) = (x ++ [c]) ++ joinSep [c] (y :: rest) from rfl,
      List.append_assoc]
  rfl

/-- A character of a joined list is the separator or belongs to a
fragment. -/
theorem joinSep_mem (c d : Char) :
    ∀ L : List (List Char), d ∈ joinSep [c] L → d = c ∨ ∃ x ∈ L, d ∈ x := by
  intro L
  induction L with
  | nil => intro h; exact absurd h (List.not_mem_nil d)
  | cons x xs ih =>
    cases xs with
    | nil =>
      intro h
      exact Or.inr ⟨x, List.mem_cons_self x [], h⟩
    | cons x' xs' =>
      intro h
      rw [joinSep_cons₂] at h
      rcases List.mem_append.mp h with h1 | h2
      · exact Or.inr ⟨x, List.mem_cons_self x _, h1⟩
      · rcases List.mem_cons.mp h2 with h3 | h4
        · exact Or.inl h3
        · rcases ih h4 with hc | ⟨z, hz, hdz⟩
          · exact Or.inl hc
          · exact Or.inr ⟨z, List.mem_cons_of_mem x hz, hdz⟩

/-- Joining with a separator absent from every (nonempty) fragment is
injective. -/
theorem joinSep_inj (c : Char) :
    ∀ L₁ L₂ : List (List Char),
      (∀ x ∈ L₁, c ∉ x ∧ x ≠ []) → (∀ x ∈ L₂, c ∉ x ∧ x ≠ []) →
      joinSep [c] L₁ = joinSep [c] L₂ → L₁ = L₂ := by
  intro L₁
  induction L₁ with
  | nil =>
    intro L₂ _ h₂ heq
    cases L₂ with
    | nil => rfl
    | cons y ys =>
      cases ys with
      | nil => exact absurd heq.symm ((h₂ y (List.mem_cons_self y [])).2)
      | cons y' ys' =>
        rw [show joinSep [c] ([] : List (List Char)) = [] from rfl, joinSep_cons₂] at heq
        exact absurd heq.symm (by simp)
  | cons x xs ih =>
    intro L₂ h₁ h₂ heq
    cases L₂ with
    | nil =>
      cases xs with
      | nil => exact absurd heq ((h₁ x (List.mem_cons_self x [])).2)
      | cons x' xs' =>
        rw [show joinSep [c] ([] : List (List Char)) = [] from rfl, joinSep_cons₂] at heq
        exact absurd heq (by simp)
    | cons y ys =>
      cases xs with
      | nil =>
        cases ys with
        | nil =>
          rw [show joinSep [c] [x] = x from rfl, show joinSep [c] [y] = y from rfl] at heq
          rw [heq]
        | cons y' ys' =>
          exfalso
          rw [show joinSep [c] [x] = x from rfl, joinSep_cons₂] at heq
          apply (h₁ x (List.mem_cons_self x [])).1
          rw [heq]
          simp
      | cons x' xs' =>
        cases ys with
        | nil =>
          exfalso
          rw [joinSep_cons₂, show joinSep [c] [y] = y from rfl] at heq
          apply (h₂ y (List.mem_cons_self y [])).1
          rw [← heq]
          simp
        | cons y' ys' =>
          rw [joinSep_cons₂, joinSep_cons₂] at heq
          obtain ⟨hxy, hJ⟩ := marker_append_inj c x y _ _
            (h₁ x (List.mem_cons_self x _)).1 (h₂ y (List.mem_cons_self y _)).1 heq
          rw [hxy, ih (y' :: ys')
            (fun z hz => h₁ z (List.mem_cons_of_mem x hz))
            (fun z hz => h₂ z (List.mem_cons_of_mem y hz)) hJ]

/-- Sorted insertion permutes. -/
theorem insertSorted_perm (x : List Char) : ∀ l, (insertSorted x l).Perm (x :: l) := by
  intro l
  induction l with
  | nil => exact List.Perm.refl _
  | cons y ys ih =>
    simp only [insertSorted]
    by_cases h : charsLt x y = true
    · rw [if_pos h]
    · rw [if_neg h]
      exact (ih.cons y).trans (List.Perm.swap x y ys)

/-- Sorting permutes. -/
theorem sortChars_perm : ∀ l : List (List Char), (sortChars l).Perm l := by
  intro l
  induction l with
  | nil => exact List.Perm.refl _
  | cons x xs ih =>
    exact (insertSorted_perm x (sortChars xs)).trans (ih.cons x)

/-- A permutation that preserves a duplicate-free key map is the
identity. -/
theorem keyed_perm {α β : Type} (f : α → β) :
    ∀ l₁ l₂ : List α, l₁.Perm l₂ → l₁.map f = l₂.map f → (l₁.map f).Nodup → l₁ = l₂ := by
  intro l₁
  induction l₁ with
  | nil =>
    intro l₂ hp _ _
    cases l₂ with
    | nil => rfl
    | cons y ys => exact absurd hp.length_eq (by simp)
  | cons x xs ih =>
    intro l₂ hp hmap hnd
    cases l₂ with
    | nil => exact absurd hp.length_eq (by simp)
    | cons y ys =>
      simp only [List.map_cons, List.cons.injEq] at hmap
      simp only [List.map_cons] at hnd
      obtain ⟨hf, hmaps⟩ := hmap
      have hx : x = y ∨ x ∈ ys := by
        have hm := hp.mem_iff.mp (List.mem_cons_self x xs)
        simpa using hm
      cases hx with
      | inl hxy =>
        subst hxy
        rw [ih ys hp.cons_inv hmaps (List.Nodup.of_cons hnd)]
      | inr hxys =>
        exfalso
        have h1 : f x ∈ List.map f ys := List.mem_map_of_mem f hxys
        rw [← hmaps] at h1
        exact (List.nodup_cons.mp hnd).1 h1

/-- Two sorted permutations of the same strings are equal. -/
theorem sorted_strings_unique :
    ∀ l₁ l₂ : List (List Char), l₁.Perm l₂ →
      List.Pairwise (fun a b => charsLt a b = true) l₁ →
      List.Pairwise (fun a b => charsLt a b = true) l₂ → l₁ = l₂ := by
  intro l₁ l₂ hp s₁ s₂
  haveI : IsAntisymm (List Char) (fun a b => charsLt a b = true) := ⟨by
    intro a b hab hba
    rw [charsLt_asymm a b hab] at hba
    exact absurd hba (by decide)⟩
  exact List.eq_of_perm_of_sorted hp s₁ s₂

/-- A strictly sorted list of strings has no duplicates. -/
theorem pairwise_charsLt_nodup (l : List (List Char))
    (h : List.Pairwise (fun a b => charsLt a b = true) l) : l.Nodup := by
  refine h.imp ?_
  intro a b hab heq
  subst heq
  rw [charsLt_irrefl] at hab
  exact absurd hab (by decide)

/-! ## Injectivity of the serialized conjunction state -/

/-- A separator character does not occur in a separator-free name. -/
theorem sepFree_not_mem (s : String) (c : Char) (hc : seps.contains c = true)
    (h : sepFree s = true) : c ∉ s.data := by
  intro hm
  have h2 := List.all_eq_true.mp h c hm
  rw [hc] at h2
  exact absurd h2 (by decide)

/-- `String.data` is injective. -/
theorem strData_inj (a b : String) (h : a.data = b.data) : a = b :=
  congrArg String.mk h

/-- The rendering of a pulse determines the pulse. -/
theorem display_inj (v₁ v₂ : Pulse) (h : v₁.display = v₂.display) : v₁ = v₂ := by
  cases v₁ <;> cases v₂ <;> revert h <;> decide

/-- The rendering of a remembered input determines it, when its key is
separator-free. -/
theorem encKV_inj (kv₁ kv₂ : String × Pulse)
    (h₁ : sepFree kv₁.1 = true) (h₂ : sepFree kv₂.1 = true)
    (h : encKV kv₁ = encKV kv₂) : kv₁ = kv₂ := by
  obtain ⟨hk, hv⟩ := marker_append_inj '=' kv₁.1.data kv₂.1.data _ _
    (sepFree_not_mem kv₁.1 '=' (by decide) h₁) (sepFree_not_mem kv₂.1 '=' (by decide) h₂) h
  have hks : kv₁.1 = kv₂.1 := strData_inj _ _ hk
  have hvs : kv₁.2 = kv₂.2 := display_inj _ _ hv
  exact Prod.ext hks hvs

/-- A boolean-sorted input map is pairwise sorted. -/
theorem keysSorted_pairwise :
    ∀ inputs, keysSorted inputs = true →
      List.Pairwise (fun a b : String × Pulse => strLt a.1 b.1 = true) inputs := by
  intro inputs
  induction inputs with
  | nil => intro _; exact List.Pairwise.nil
  | cons kv rest ih =>
    intro h
    cases rest with
    | nil => exact List.pairwise_singleton _ _
    | cons kv₂ rest₂ =>
      obtain ⟨k₁, v₁⟩ := kv
      obtain ⟨k₂, v₂⟩ := kv₂
      simp only [keysSorted, Bool.and_eq_true] at h
      obtain ⟨hlt, hrest⟩ := h
      have hp := ih hrest
      constructor
      · intro b hb
        rcases List.mem_cons.mp hb with hb1 | hb2
        · rw [hb1]
          exact hlt
        · exact charsLt_trans k₁.data k₂.data b.1.data hlt
            ((List.pairwise_cons.mp hp).1 b hb2)
      · exact hp

/-- A pairwise-sorted input map is boolean-sorted. -/
theorem pairwise_keysSorted :
    ∀ inputs : List (String × Pulse),
      List.Pairwise (fun a b : String × Pulse => strLt a.1 b.1 = true) inputs →
      keysSorted inputs = true := by
  intro inputs
  induction inputs with
  | nil => intro _; rfl
  | cons kv rest ih =>
    intro h
    cases rest with
    | nil => rfl
    | cons kv₂ rest₂ =>
      obtain ⟨k₁, v₁⟩ := kv
      obtain ⟨k₂, v₂⟩ := kv₂
      simp only [keysSorted, Bool.and_eq_true]
      have hp := List.pairwise_cons.mp h
      exact ⟨hp.1 (k₂, v₂) (List.mem_cons_self _ _), ih hp.2⟩

/-- Rendered input fragments are comma-free and nonempty. -/
theorem encKV_frag_ok (ins : List (String × Pulse)) (hk : keysOk ins = true) :
    ∀ x ∈ sortChars (ins.map encKV), ',' ∉ x ∧ x ≠ [] := by
  intro x hx
  have hx' : x ∈ ins.map encKV := (sortChars_perm _).mem_iff.mp hx
  obtain ⟨kv, hkv, rfl⟩ := List.mem_map.mp hx'
  obtain ⟨k, v⟩ := kv
  have hkf : sepFree k = true := List.all_eq_true.mp hk (k, v) hkv
  constructor
  · intro hm
    rcases List.mem_append.mp hm with h1 | h2
    · exact sepFree_not_mem k ',' (by decide) hkf h1
    · rcases List.mem_cons.mp h2 with h3 | h4
      · exact absurd h3 (by decide)
      · cases v with
        | low => exact absurd (show ',' ∈ Pulse.display Pulse.low from h4) (by decide)
        | high => exact absurd (show ',' ∈ Pulse.display Pulse.high from h4) (by decide)
  · intro hnil
    exact absurd (List.append_eq_nil.mp hnil).2 (by simp)

/-- The key of a rendered input fragment is its key. -/
theorem encKV_keys (ins : List (String × Pulse)) (hk : keysOk ins = true) :
    (ins.map encKV).map (keyOfC '=') = ins.map fun kv => kv.1.data := by
  rw [List.map_map]
  apply List.map_congr_left
  intro kv hkv
  show keyOfC '=' (encKV kv) = kv.1.data
  exact takeWhile_marker '=' kv.1.data _
    (sepFree_not_mem kv.1 '=' (by decide) (List.all_eq_true.mp hk kv hkv))

/-- Equal mapped renderings give equal input maps. -/
theorem map_encKV_inj :
    ∀ ins₁ ins₂ : List (String × Pulse), keysOk ins₁ = true → keysOk ins₂ = true →
      ins₁.map encKV = ins₂.map encKV → ins₁ = ins₂ := by
  intro ins₁
  induction ins₁ with
  | nil =>
    intro ins₂ _ _ h
    cases ins₂ with
    | nil => rfl
    | cons y ys => exact absurd h (by simp)
  | cons x xs ih =>
    intro ins₂ hk₁ hk₂ h
    cases ins₂ with
    | nil => exact absurd h (by simp)
    | cons y ys =>
      simp only [List.map_cons, List.cons.injEq] at h
      rw [encKV_inj x y (List.all_eq_true.mp hk₁ x (List.mem_cons_self x xs))
            (List.all_eq_true.mp hk₂ y (List.mem_cons_self y ys)) h.1,
          ih ys
            (List.all_eq_true.mpr fun z hz => List.all_eq_true.mp hk₁ z (List.mem_cons_of_mem _ hz))
            (List.all_eq_true.mpr fun z hz => List.all_eq_true.mp hk₂ z (List.mem_cons_of_mem _ hz))
            h.2]

/-- The serialized state of a conjunction with separator-free, sorted
keys determines its input map. -/
theorem conj_state_inj (ins₁ ins₂ : List (String × Pulse))
    (hk₁ : keysOk ins₁ = true) (hs₁ : keysSorted ins₁ = true)
    (hk₂ : keysOk ins₂ = true) (hs₂ : keysSorted ins₂ = true)
    (heq : joinSep [','] (sortChars (ins₁.map encKV)) =
      joinSep [','] (sortChars (ins₂.map encKV))) : ins₁ = ins₂ := by
  have hsort := joinSep_inj ',' _ _ (encKV_frag_ok ins₁ hk₁) (encKV_frag_ok ins₂ hk₂) heq
  have hperm : (ins₁.map encKV).Perm (ins₂.map encKV) := by
    have p₁ := sortChars_perm (ins₁.map encKV)
    have p₂ := sortChars_perm (ins₂.map encKV)
    rw [hsort] at p₁
    exact p₁.symm.trans p₂
  have hpw₁ : List.Pairwise (fun a b => charsLt a b = true) (ins₁.map fun kv => kv.1.data) :=
    List.pairwise_map.mpr ((keysSorted_pairwise ins₁ hs₁).imp fun h => h)
  have hpw₂ : List.Pairwise (fun a b => charsLt a b = true) (ins₂.map fun kv => kv.1.data) :=
    List.pairwise_map.mpr ((keysSorted_pairwise ins₂ hs₂).imp fun h => h)
  have hmk : (ins₁.map fun kv => kv.1.data).Perm (ins₂.map fun kv => kv.1.data) := by
    have hpm := hperm.map (keyOfC '=')
    rw [encKV_keys ins₁ hk₁, encKV_keys ins₂ hk₂] at hpm
    exact hpm
  have hklEq := sorted_strings_unique _ _ hmk hpw₁ hpw₂
  have hnd : ((ins₁.map encKV).map (keyOfC '=')).Nodup := by
    rw [encKV_keys ins₁ hk₁]
    exact pairwise_charsLt_nodup _ hpw₁
  have hfragsEq : ins₁.map encKV = ins₂.map encKV :=
    keyed_perm (keyOfC '=') _ _ hperm
      (by rw [encKV_keys ins₁ hk₁, encKV_keys ins₂ hk₂, hklEq]) hnd
  exact map_encKV_inj ins₁ ins₂ hk₁ hk₂ hfragsEq

/-! ## Injectivity of the serialized machine state on good networks -/

/-- A separator character does not occur in the serialized state of a
conjunction with separator-free keys. -/
theorem conj_state_not_mem (ins : List (String × Pulse)) (hk : keysOk ins = true)
    (c : Char) (hc : seps.contains c = true) (hne : c ≠ ',') (hne₂ : c ≠ '=')
    (hnl : c ∉ "low".data) (hnh : c ∉ "high".data) :
    c ∉ joinSep [','] (sortChars (ins.map encKV)) := by
  intro hm
  rcases joinSep_mem ',' c _ hm with h1 | ⟨x, hx, hcx⟩
  · exact hne h1
  · have hx' := (sortChars_perm _).mem_iff.mp hx
    obtain ⟨kv, hkv, rfl⟩ := List.mem_map.mp hx'
    obtain ⟨k, v⟩ := kv
    rcases List.mem_append.mp hcx with h2 | h3
    · exact sepFree_not_mem k c hc (List.all_eq_true.mp hk (k, v) hkv) h2
    · rcases List.mem_cons.mp h3 with h4 | h5
      · exact hne₂ h4
      · cases v with
        | low => exact hnl (show c ∈ "low".data from h5)
        | high => exact hnh (show c ∈ "high".data from h5)

/-- The id of a good module is separator-free. -/
theorem good_id_sepFree (md : Module) (hg : md.goodMod = true) : sepFree md.id = true := by
  cases md with
  | broadcaster d => exact (show sepFree broadcasterId = true by decide)
  | flipFlop i d b => simpa [Module.goodMod] using hg
  | conjunction i d ins =>
    simp only [Module.goodMod, Bool.and_eq_true] at hg
    exact hg.1.1

/-- The snapshot entry of a good non-broadcaster module is
semicolon-free and nonempty. -/
theorem entry_ok (md : Module) (hg : md.goodMod = true) :
    ';' ∉ md.entry ∧ md.entry ≠ [] := by
  constructor
  · intro hm
    simp only [Module.entry] at hm
    rcases List.mem_append.mp hm with h1 | h2
    · exact sepFree_not_mem md.id ';' (by decide) (good_id_sepFree md hg) h1
    · rcases List.mem_cons.mp h2 with h3 | h4
      · exact absurd h3 (by decide)
      · cases md with
        | broadcaster d => exact absurd h4 (List.not_mem_nil _)
        | flipFlop i d b =>
          cases b with
          | false => exact absurd (show ';' ∈ "off".data from h4) (by decide)
          | true => exact absurd (show ';' ∈ "on".data from h4) (by decide)
        | conjunction i d ins =>
          simp only [Module.goodMod, Bool.and_eq_true] at hg
          exact conj_state_not_mem ins hg.1.2 ';' (by decide) (by decide) (by decide)
            (by decide) (by decide) h4
  · intro hnil
    simp only [Module.entry] at hnil
    exact absurd (List.append_eq_nil.mp hnil).2 (by simp)

/-- On separator-free ids, the key of a snapshot entry is the id. -/
theorem entry_key (md : Module) (hg : md.goodMod = true) :
    keyOfC ':' md.entry = md.id.data :=
  takeWhile_marker ':' md.id.data md.state
    (sepFree_not_mem md.id ':' (by decide) (good_id_sepFree md hg))

/-- Skeleton-equal module lists agree on the filtered id list. -/
theorem filter_ids_eq :
    ∀ l₁ l₂ : List Module, l₁.map Module.skel = l₂.map Module.skel →
      ((l₁.filter fun md => !(md.id == broadcasterId)).map fun md => md.id.data) =
      ((l₂.filter fun md => !(md.id == broadcasterId)).map fun md => md.id.data) := by
  intro l₁
  induction l₁ with
  | nil =>
    intro l₂ h
    cases l₂ with
    | nil => rfl
    | cons y ys => exact absurd h (by simp)
  | cons x xs ih =>
    intro l₂ h
    cases l₂ with
    | nil => exact absurd h (by simp)
    | cons y ys =>
      simp only [List.map_cons, List.cons.injEq] at h
      have hid : x.id = y.id := congrArg Prod.fst h.1
      rw [List.filter_cons, List.filter_cons, hid]
      by_cases hbc : (!(y.id == broadcasterId)) = true
      · rw [if_pos hbc, if_pos hbc]
        simp only [List.map_cons]
        rw [hid, ih ys h.2]
      · rw [if_neg hbc, if_neg hbc]
        exact ih ys h.2

/-- The filtered id list of an id-duplicate-free module list is
duplicate-free. -/
theorem filtered_ids_nodup (l : List Module) (hnd : (l.map Module.id).Nodup) :
    ((l.filter fun md => !(md.id == broadcasterId)).map fun md => md.id.data).Nodup := by
  have hsub : ((l.filter fun md => !(md.id == broadcasterId)).map Module.id).Sublist
      (l.map Module.id) := (List.filter_sublist l).map Module.id
  have hnd₂ : ((l.filter fun md => !(md.id == broadcasterId)).map Module.id).Nodup :=
    List.Nodup.sublist hsub hnd
  have hmm : ((l.filter fun md => !(md.id == broadcasterId)).map fun md => md.id.data) =
      ((l.filter fun md => !(md.id == broadcasterId)).map Module.id).map String.data := by
    rw [List.map_map]
    rfl
  rw [hmm]
  exact hnd₂.map (fun a b hab => strData_inj a b hab)

/-- Module lists with equal skeletons and equal filtered entry lists,
all of whose modules are covered and good, are equal. -/
theorem modules_entry_inj :
    ∀ l₁ l₂ : List Module,
      l₁.all Module.covered = true → l₂.all Module.covered = true →
      l₁.all Module.goodMod = true → l₂.all Module.goodMod = true →
      l₁.map Module.skel = l₂.map Module.skel →
      ((l₁.filter fun md => !(md.id == broadcasterId)).map Module.entry) =
        ((l₂.filter fun md => !(md.id == broadcasterId)).map Module.entry) →
      l₁ = l₂ := by
  intro l₁
  induction l₁ with
  | nil =>
    intro l₂ _ _ _ _ hskel _
    cases l₂ with
    | nil => rfl
    | cons y ys => exact absurd hskel (by simp)
  | cons x xs ih =>
    intro l₂ hc₁ hc₂ hg₁ hg₂ hskel hent
    cases l₂ with
    | nil => exact absurd hskel (by simp)
    | cons y ys =>
      simp only [List.map_cons, List.cons.injEq] at hskel
      obtain ⟨hsk, hskr⟩ := hskel
      have hid : x.id = y.id := congrArg Prod.fst hsk
      have hdest : x.destinations = y.destinations := congrArg (fun e => e.2.1) hsk
      have htag : x.variantTag = y.variantTag := congrArg (fun e => e.2.2) hsk
      have hc₁' : xs.all Module.covered = true :=
        List.all_eq_true.mpr fun z hz => List.all_eq_true.mp hc₁ z (List.mem_cons_of_mem x hz)
      have hc₂' : ys.all Module.covered = true :=
        List.all_eq_true.mpr fun z hz => List.all_eq_true.mp hc₂ z (List.mem_cons_of_mem y hz)
      have hg₁' : xs.all Module.goodMod = true :=
        List.all_eq_true.mpr fun z hz => List.all_eq_true.mp hg₁ z (List.mem_cons_of_mem x hz)
      have hg₂' : ys.all Module.goodMod = true :=
        List.all_eq_true.mpr fun z hz => List.all_eq_true.mp hg₂ z (List.mem_cons_of_mem y hz)
      rw [List.filter_cons, List.filter_cons] at hent
      by_cases hb : x.id = broadcasterId
      · have hb₂ : y.id = broadcasterId := hid ▸ hb
        have hne : ¬((!(x.id == broadcasterId)) = true) := by
          simp [hb]
        have hne₂ : ¬((!(y.id == broadcasterId)) = true) := by
          simp [hb₂]
        rw [if_neg hne, if_neg hne₂] at hent
        have ht1 : x.variantTag = 0 := by
          have hcx := List.all_eq_true.mp hc₁ x (List.mem_cons_self x xs)
          unfold Module.covered at hcx
          rw [hb] at hcx
          simpa using hcx
        have ht2 : y.variantTag = 0 := by rw [← htag]; exact ht1
        obtain ⟨d₁, hd₁⟩ : ∃ d, x = Module.broadcaster d := by
          cases x with
          | broadcaster d => exact ⟨d, rfl⟩
          | flipFlop i d b => exact absurd ht1 (by simp [Module.variantTag])
          | conjunction i d ins => exact absurd ht1 (by simp [Module.variantTag])
        obtain ⟨d₂, hd₂⟩ : ∃ d, y = Module.broadcaster d := by
          cases y with
          | broadcaster d => exact ⟨d, rfl⟩
          | flipFlop i d b => exact absurd ht2 (by simp [Module.variantTag])
          | conjunction i d ins => exact absurd ht2 (by simp [Module.variantTag])
        subst hd₁
        subst hd₂
        have hd : d₁ = d₂ := by simpa [Module.destinations] using hdest
        subst hd
        rw [ih ys hc₁' hc₂' hg₁' hg₂' hskr hent]
      · have hb₂ : ¬y.id = broadcasterId := by rw [← hid]; exact hb
        have hcond : (!(x.id == broadcasterId)) = true := by
          simp [hb]
        have hcond₂ : (!(y.id == broadcasterId)) = true := by
          simp [hb₂]
        rw [if_pos hcond, if_pos hcond₂] at hent
        simp only [List.map_cons, List.cons.injEq] at hent
        obtain ⟨hhead, htail⟩ := hent
        have hstate : x.state = y.state := by
          have h := hhead
          simp only [Module.entry, hid] at h
          have h₂ := List.append_cancel_left h
          injection h₂
        have hgx := List.all_eq_true.mp hg₁ x (List.mem_cons_self x xs)
        have hgy := List.all_eq_true.mp hg₂ y (List.mem_cons_self y ys)
        have hxy : x = y := by
          cases x with
          | broadcaster d => exact absurd rfl hb
          | flipFlop i d b =>
            cases y with
            | broadcaster d₂ => exact absurd rfl hb₂
            | flipFlop i₂ d₂ b₂ =>
              have hi : i = i₂ := hid
              have hd : d = d₂ := hdest
              have hs : (if b then "on".data else "off".data) =
                  (if b₂ then "on".data else "off".data) := hstate
              have hbb : b = b₂ := by
                cases b <;> cases b₂ <;> revert hs <;> decide
              rw [hi, hd, hbb]
            | conjunction i₂ d₂ ins₂ => exact absurd (show (1 : Nat) = 2 from htag) (by decide)
          | conjunction i d ins =>
            cases y with
            | broadcaster d₂ => exact absurd rfl hb₂
            | flipFlop i₂ d₂ b₂ => exact absurd (show (2 : Nat) = 1 from htag) (by decide)
            | conjunction i₂ d₂ ins₂ =>
              have hi : i = i₂ := hid
              have hd : d = d₂ := hdest
              simp only [Module.goodMod, Bool.and_eq_true] at hgx hgy
              have hins : ins = ins₂ :=
                conj_state_inj ins ins₂ hgx.1.2 hgx.2 hgy.1.2 hgy.2 hstate
              rw [hi, hd, hins]
        rw [hxy, ih ys hc₁' hc₂' hg₁' hg₂' hskr htail]

/-- On good networks the serialized state string is a faithful
memoization key: equal skeletons and equal state strings force equal
networks. -/
theorem machine_state_inj (m₁ m₂ : PulseMachine) (h₁ : m₁.goodM) (h₂ : m₂.goodM)
    (hskel : m₁.skeleton = m₂.skeleton) (hstate : m₁.stateKey = m₂.stateKey) : m₁ = m₂ := by
  obtain ⟨hnd₁, hcov₁, hg₁⟩ := h₁
  obtain ⟨hnd₂, hcov₂, hg₂⟩ := h₂
  have hok₁ : ∀ e ∈ sortChars ((m₁.modules.filter fun md =>
      !(md.id == broadcasterId)).map Module.entry), ';' ∉ e ∧ e ≠ [] := by
    intro e he
    obtain ⟨md, hmd, rfl⟩ := List.mem_map.mp ((sortChars_perm _).mem_iff.mp he)
    have hmem := List.mem_filter.mp hmd
    exact entry_ok md (List.all_eq_true.mp hg₁ md hmem.1)
  have hok₂ : ∀ e ∈ sortChars ((m₂.modules.filter fun md =>
      !(md.id == broadcasterId)).map Module.entry), ';' ∉ e ∧ e ≠ [] := by
    intro e he
    obtain ⟨md, hmd, rfl⟩ := List.mem_map.mp ((sortChars_perm _).mem_iff.mp he)
    have hmem := List.mem_filter.mp hmd
    exact entry_ok md (List.all_eq_true.mp hg₂ md hmem.1)
  have hsorted := joinSep_inj ';' _ _ hok₁ hok₂ hstate
  have hperm : ((m₁.modules.filter fun md => !(md.id == broadcasterId)).map Module.entry).Perm
      ((m₂.modules.filter fun md => !(md.id == broadcasterId)).map Module.entry) := by
    have p₁ := sortChars_perm ((m₁.modules.filter fun md =>
      !(md.id == broadcasterId)).map Module.entry)
    have p₂ := sortChars_perm ((m₂.modules.filter fun md =>
      !(md.id == broadcasterId)).map Module.entry)
    rw [hsorted] at p₁
    exact p₁.symm.trans p₂
  have hkeys : ∀ (l : List Module), l.all Module.goodMod = true →
      ((l.filter fun md => !(md.id == broadcasterId)).map Module.entry).map (keyOfC ':') =
      ((l.filter fun md => !(md.id == broadcasterId)).map fun md => md.id.data) := by
    intro l hg
    rw [List.map_map]
    apply List.map_congr_left
    intro md hmd
    have hmem := List.mem_filter.mp hmd
    exact entry_key md (List.all_eq_true.mp hg md hmem.1)
  have hmapeq : (((m₁.modules.filter fun md =>
        !(md.id == broadcasterId)).map Module.entry).map (keyOfC ':')) =
      (((m₂.modules.filter fun md =>
        !(md.id == broadcasterId)).map Module.entry).map (keyOfC ':')) := by
    rw [hkeys _ hg₁, hkeys _ hg₂]
    exact filter_ids_eq _ _ hskel
  have hnd : (((m₁.modules.filter fun md =>
      !(md.id == broadcasterId)).map Module.entry).map (keyOfC ':')).Nodup := by
    rw [hkeys _ hg₁]
    exact filtered_ids_nodup _ hnd₁
  have hEeq := keyed_perm (keyOfC ':') _ _ hperm hmapeq hnd
  cases m₁ with
  | mk l₁ =>
    cases m₂ with
    | mk l₂ =>
      congr 1
      exact modules_entry_inj l₁ l₂ hcov₁ hcov₂ hg₁ hg₂ hskel hEeq

/-! ## Preservation of goodness along presses -/

/-- A member of an updated input map is the inserted entry or an old
entry. -/
theorem insertPulse_mem (src : String) (p : Pulse) :
    ∀ inputs b, b ∈ insertPulse src p inputs → b = (src, p) ∨ b ∈ inputs := by
  intro inputs
  induction inputs with
  | nil =>
    intro b hb
    left
    simpa [insertPulse] using hb
  | cons kv rest ih =>
    intro b hb
    obtain ⟨k, v⟩ := kv
    simp only [insertPulse] at hb
    split_ifs at hb with h1 h2
    · rcases List.mem_cons.mp hb with h | h
      · exact Or.inl h
      · exact Or.inr (List.mem_cons_of_mem _ h)
    · rcases List.mem_cons.mp hb with h | h
      · exact Or.inl h
      · exact Or.inr h
    · rcases List.mem_cons.mp hb with h | h
      · rw [h]
        exact Or.inr (List.mem_cons_self _ _)
      · rcases ih b h with h' | h'
        · exact Or.inl h'
        · exact Or.inr (List.mem_cons_of_mem _ h')

/-- Insertion keeps a pairwise-sorted input map pairwise sorted. -/
theorem insertPulse_pairwise (src : String) (p : Pulse) :
    ∀ inputs, List.Pairwise (fun a b : String × Pulse => strLt a.1 b.1 = true) inputs →
      List.Pairwise (fun a b : String × Pulse => strLt a.1 b.1 = true)
        (insertPulse src p inputs) := by
  intro inputs
  induction inputs with
  | nil => intro _; exact List.pairwise_singleton _ _
  | cons kv rest ih =>
    intro h
    obtain ⟨k, v⟩ := kv
    have hp := List.pairwise_cons.mp h
    simp only [insertPulse]
    split_ifs with h1 h2
    · subst h1
      exact List.pairwise_cons.mpr ⟨fun b hb => hp.1 b hb, hp.2⟩
    · refine List.pairwise_cons.mpr ⟨?_, h⟩
      intro b hb
      rcases List.mem_cons.mp hb with hb1 | hb2
      · rw [hb1]
        exact h2
      · exact charsLt_trans src.data k.data b.1.data h2 (hp.1 b hb2)
    · have hks : strLt k src = true := by
        by_cases hc : strLt k src = true
        · exact hc
        · exfalso
          apply h1
          have hdata := charsLt_eq_of_not src.data k.data
            (Bool.eq_false_iff.mpr h2) (Bool.eq_false_iff.mpr hc)
          exact strData_inj src k hdata
      refine List.pairwise_cons.mpr ⟨?_, ih hp.2⟩
      intro b hb
      rcases insertPulse_mem src p rest b hb with hb1 | hb2
      · rw [hb1]
        exact hks
      · exact hp.1 b hb2

/-- One module transition preserves goodness when the source name is
separator-free. -/
theorem handle_pulse_good (md : Module) (p : Pulse) (src : String)
    (hsrc : sepFree src = true) (hg : md.goodMod = true) :
    ((md.handle_pulse p src).1).goodMod = true := by
  cases md with
  | broadcaster d => rfl
  | flipFlop i d b => cases p <;> exact hg
  | conjunction i d ins =>
    show (Module.conjunction i d (insertPulse src p ins)).goodMod = true
    simp only [Module.goodMod, Bool.and_eq_true] at hg ⊢
    obtain ⟨⟨hsep, hko⟩, hks⟩ := hg
    refine ⟨⟨hsep, ?_⟩, ?_⟩
    · apply List.all_eq_true.mpr
      intro kv hkv
      rcases insertPulse_mem src p ins kv hkv with h | h
      · rw [h]
        exact hsrc
      · exact List.all_eq_true.mp hko kv h
    · exact pairwise_keysSorted _ (insertPulse_pairwise src p ins (keysSorted_pairwise ins hks))

/-- The module found under a key is a member of the list. -/
theorem findModule_mem (dst : String) : ∀ l md, findModule dst l = some md → md ∈ l := by
  intro l
  induction l with
  | nil => intro md h; exact absurd h (by simp [findModule])
  | cons x xs ih =>
    intro md h
    simp only [findModule] at h
    split_ifs at h with h1
    · rw [← Option.some.inj h]
      exact List.mem_cons_self _ _
    · exact List.mem_cons_of_mem _ (ih md h)

/-- Replacing a module with a good one preserves all-goodness. -/
theorem updateModule_all_good (dst : String) (newMd : Module)
    (hnew : newMd.goodMod = true) :
    ∀ l, l.all Module.goodMod = true → (updateModule dst newMd l).all Module.goodMod = true := by
  intro l
  induction l with
  | nil => intro _; rfl
  | cons x xs ih =>
    intro hall
    have hx := List.all_eq_true.mp hall x (List.mem_cons_self x xs)
    have hxs : xs.all Module.goodMod = true :=
      List.all_eq_true.mpr fun z hz => List.all_eq_true.mp hall z (List.mem_cons_of_mem x hz)
    simp only [updateModule]
    split_ifs with h1
    · simp only [List.all_cons, Bool.and_eq_true]
      exact ⟨hnew, hxs⟩
    · simp only [List.all_cons, Bool.and_eq_true]
      exact ⟨hx, ih hxs⟩

/-- The press loop preserves all-goodness of the module list, given
that every queued event's source is separator-free. -/
theorem runPress_good :
    ∀ fuel m events low high r,
      m.modules.all Module.goodMod = true →
      (events.all fun e => sepFree e.1) = true →
      runPress fuel m events low high = some r →
      r.2.modules.all Module.goodMod = true := by
  intro fuel
  induction fuel with
  | zero =>
    intro m events low high r hg _ h
    cases events with
    | nil => cases h; exact hg
    | cons e rest => exact absurd h (by simp [runPress])
  | succ f ih =>
    intro m events low high r hg hq h
    cases events with
    | nil => cases h; exact hg
    | cons e rest =>
      obtain ⟨src, dst, p⟩ := e
      have hqr : (rest.all fun e => sepFree e.1) = true :=
        List.all_eq_true.mpr fun z hz => List.all_eq_true.mp hq z (List.mem_cons_of_mem _ hz)
      cases hfind : findModule dst m.modules with
      | none =>
        simp only [runPress, hfind] at h
        exact ih _ _ _ _ _ hg hqr h
      | some md =>
        simp only [runPress, hfind] at h
        have hmdg : md.goodMod = true :=
          List.all_eq_true.mp hg md (findModule_mem dst m.modules md hfind)
        have hsrc : sepFree src = true := by
          have := List.all_eq_true.mp hq (src, dst, p) (List.mem_cons_self _ _)
          exact this
        have hnewg : ((md.handle_pulse p src).1).goodMod = true :=
          handle_pulse_good md p src hsrc hmdg
        refine ih _ _ _ _ _ (updateModule_all_good dst _ hnewg m.modules hg) ?_ h
        apply List.all_eq_true.mpr
        intro z hz
        rcases List.mem_append.mp hz with h1 | h2
        · exact List.all_eq_true.mp hqr z h1
        · obtain ⟨out, _, rfl⟩ := List.mem_map.mp h2
          show sepFree ((md.handle_pulse p src).1).id = true
          rw [handle_pulse_id md p src]
          exact good_id_sepFree md hmdg

/-- The ids of a module list are the first components of its skeletons. -/
theorem ids_eq_skel : ∀ l : List Module,
    l.map Module.id = (l.map Module.skel).map Prod.fst := by
  intro l
  induction l with
  | nil => rfl
  | cons x xs ih =>
    simp only [List.map_cons, List.cons.injEq]
    exact ⟨rfl, ih⟩

/-- A completed button press preserves goodness of the network. -/
theorem press_good (fuel : Nat) (m : PulseMachine) (r : (Nat × Nat) × PulseMachine)
    (hg : m.goodM) (h : m.handle_button_press fuel = some r) : r.2.goodM := by
  obtain ⟨hnd, hcov, hall⟩ := hg
  have hskel : r.2.skeleton = m.skeleton := press_skeleton fuel m r h
  refine ⟨?_, ?_, ?_⟩
  · have hmi : r.2.modules.map Module.id = m.modules.map Module.id := by
      rw [ids_eq_skel, ids_eq_skel]
      show (r.2.skeleton).map Prod.fst = (m.skeleton).map Prod.fst
      rw [hskel]
    rw [hmi]
    exact hnd
  · rw [stateCovers_eq_skel, hskel, ← stateCovers_eq_skel]
    exact hcov
  · exact runPress_good fuel m _ 0 0 r hall (by decide) h

/-- Goodness holds along a trace of completed presses. -/
theorem trace_good (fuel N : Nat) (mAt : Nat → PulseMachine) (T : Nat → Nat × Nat)
    (hstep : ∀ i, i < N → (mAt i).handle_button_press fuel = some (T i, mAt (i + 1)))
    (hg : (mAt 0).goodM) : ∀ i, i ≤ N → (mAt i).goodM := by
  intro i
  induction i with
  | zero => intro _; exact hg
  | succ i ih =>
    intro hle
    exact press_good fuel (mAt i) (T i, mAt (i + 1)) (ih (by omega)) (hstep i (by omega))

/-! ## Trace lemmas and the extrapolation theorem (C1) -/

/-- Along a trace of completed presses the skeleton never changes. -/
theorem trace_skeleton (fuel N : Nat) (mAt : Nat → PulseMachine) (T : Nat → Nat × Nat)
    (hstep : ∀ i, i < N → (mAt i).handle_button_press fuel = some (T i, mAt (i + 1))) :
    ∀ i, i ≤ N → (mAt i).skeleton = (mAt 0).skeleton := by
  intro i
  induction i with
  | zero => intro _; rfl
  | succ i ih =>
    intro hle
    have h := press_skeleton fuel (mAt i) (T i, mAt (i + 1)) (hstep i (by omega))
    exact h.trans (ih (by omega))

/-- If two presses of a trace start from equal machines, the future of
the trace repeats, press for press. -/
theorem trace_repeat (fuel N : Nat) (mAt : Nat → PulseMachine) (T : Nat → Nat × Nat)
    (hstep : ∀ i, i < N → (mAt i).handle_button_press fuel = some (T i, mAt (i + 1)))
    (j t : Nat) (hjt : j < t) (heqm : mAt j = mAt t) :
    ∀ d, t + d < N → T (j + d) = T (t + d) ∧ mAt (j + d + 1) = mAt (t + d + 1) := by
  intro d
  induction d with
  | zero =>
    intro hd
    have hj := hstep j (by omega)
    have ht := hstep t (by omega)
    rw [heqm, ht] at hj
    simp only [Option.some.injEq, Prod.mk.injEq] at hj
    simp only [Nat.add_zero]
    exact ⟨hj.1.symm, hj.2.symm⟩
  | succ d ih =>
    intro hd
    obtain ⟨_, hm⟩ := ih (by omega)
    have hj := hstep (j + d + 1) (by omega)
    have ht := hstep (t + d + 1) (by omega)
    rw [hm, ht] at hj
    simp only [Option.some.injEq, Prod.mk.injEq] at hj
    exact ⟨hj.1.symm, hj.2.symm⟩

/-- The `pulses` loop invariant: started after `t` simulated presses
with the snapshots, cache and accumulated tally of presses `0..t-1`
(whose snapshots are pairwise distinct), the loop returns the wrapped
total tally over all `N` presses. -/
theorem pulsesLoop_correct (W fuel N : Nat) (mAt : Nat → PulseMachine) (T : Nat → Nat × Nat)
    (hstep : ∀ i, i < N → (mAt i).handle_button_press fuel = some (T i, mAt (i + 1)))
    (hgood : (mAt 0).goodM) :
    ∀ k t, k + t = N →
      (∀ p q, p < q → q < t → (mAt p).stateKey ≠ (mAt q).stateKey) →
      pulsesLoop W fuel N k (mAt t) (keyList (fun i => (mAt i).stateKey) 0 t)
        (cacheList (fun i => (mAt i).stateKey) (fun i => wrapP W (T i)) 0 t)
        (sumTo (fun i => (T i).1) t % W, sumTo (fun i => (T i).2) t % W) =
      some (sumTo (fun i => (T i).1) N % W, sumTo (fun i => (T i).2) N % W) := by
  intro k
  induction k with
  | zero =>
    intro t ht _
    obtain rfl : t = N := by omega
    rfl
  | succ k ih =>
    intro t ht hdist
    have htN : t < N := by omega
    have hpress := hstep t htN
    cases hidx : keyIdx ((mAt t).stateKey) (keyList (fun i => (mAt i).stateKey) 0 t) with
    | none =>
      simp only [pulsesLoop, hpress, hidx]
      have hnone := keyIdx_keyList_none (fun i => (mAt i).stateKey) ((mAt t).stateKey) t 0 hidx
      have hdist' : ∀ p q, p < q → q < t + 1 → (mAt p).stateKey ≠ (mAt q).stateKey := by
        intro p q hpq hq
        by_cases hqt : q = t
        · subst hqt
          have := hnone p (by omega)
          simpa using this
        · exact hdist p q hpq (by omega)
      have hkeys : keyList (fun i => (mAt i).stateKey) 0 t ++ [(mAt t).stateKey] =
          keyList (fun i => (mAt i).stateKey) 0 (t + 1) := by
        rw [keyList_snoc]
        simp
      have hcache : cacheList (fun i => (mAt i).stateKey) (fun i => wrapP W (T i)) 0 t ++
          [((mAt t).stateKey, ((T t).1 % W, (T t).2 % W))] =
          cacheList (fun i => (mAt i).stateKey) (fun i => wrapP W (T i)) 0 (t + 1) := by
        rw [cacheList_snoc]
        simp [wrapP]
      have hacc1 : (sumTo (fun i => (T i).1) t % W + (T t).1 % W) % W =
          sumTo (fun i => (T i).1) (t + 1) % W := by
        rw [show sumTo (fun i => (T i).1) (t + 1) =
          sumTo (fun i => (T i).1) t + (T t).1 from rfl]
        exact (Nat.add_mod _ _ _).symm
      have hacc2 : (sumTo (fun i => (T i).2) t % W + (T t).2 % W) % W =
          sumTo (fun i => (T i).2) (t + 1) % W := by
        rw [show sumTo (fun i => (T i).2) (t + 1) =
          sumTo (fun i => (T i).2) t + (T t).2 from rfl]
        exact (Nat.add_mod _ _ _).symm
      rw [hkeys, hcache, hacc1, hacc2]
      exact ih (t + 1) (by omega) hdist'
    | some j =>
      simp only [pulsesLoop, hpress, hidx]
      obtain ⟨hjt, hkeyeq⟩ :=
        keyIdx_keyList_some (fun i => (mAt i).stateKey) ((mAt t).stateKey) t 0 j hidx
      simp only [Nat.zero_add] at hkeyeq
      have hskelj : (mAt j).skeleton = (mAt t).skeleton := by
        rw [trace_skeleton fuel N mAt T hstep j (by omega),
            trace_skeleton fuel N mAt T hstep t (by omega)]
      have hgj : (mAt j).goodM := trace_good fuel N mAt T hstep hgood j (by omega)
      have hgt : (mAt t).goodM := trace_good fuel N mAt T hstep hgood t (by omega)
      have hmeq : mAt j = mAt t := machine_state_inj _ _ hgj hgt hskelj hkeyeq
      have hL : 0 < t - j := by omega
      have hdm := Nat.div_add_mod (N - j) (t - j)
      have htr_eq : N - j - (t - j) * ((N - j) / (t - j)) = (N - j) % (t - j) := by omega
      have htr_lt : (N - j) % (t - j) < t - j := Nat.mod_lt _ hL
      rw [keyList_length (fun i => (mAt i).stateKey) t 0,
          keyList_take (fun i => (mAt i).stateKey) t 0 j (by omega),
          keyList_drop (fun i => (mAt i).stateKey) t 0 j (by omega),
          htr_eq]
      simp only [Nat.zero_add]
      rw [keyList_take (fun i => (mAt i).stateKey) (t - j) j ((N - j) % (t - j)) (by omega)]
      rw [keyList_lookup (fun i => (mAt i).stateKey) (fun i => wrapP W (T i)) t hdist
            j 0 (by omega),
          keyList_lookup (fun i => (mAt i).stateKey) (fun i => wrapP W (T i)) t hdist
            (t - j) j (by omega),
          keyList_lookup (fun i => (mAt i).stateKey) (fun i => wrapP W (T i)) t hdist
            ((N - j) % (t - j)) j (by omega)]
      simp only [sumT_eq, valList_fst_sum, valList_snd_sum, wrapP, sumTo_mod, Nat.zero_add]
      rw [wrap_formula, wrap_formula]
      have hper : ∀ d, t + d < N → T (j + d) = T (t + d) := fun d hd =>
        (trace_repeat fuel N mAt T hstep j t hjt hmeq d hd).1
      have hsum1 : sumTo (fun d => (T d).1) j +
          sumTo (fun d => (T (j + d)).1) (t - j) * ((N - j) / (t - j)) +
          sumTo (fun d => (T (j + d)).1) ((N - j) % (t - j)) =
          sumTo (fun d => (T d).1) N := by
        have hNsplit : N = j + (N - j) := by omega
        rw [show sumTo (fun d => (T d).1) N = sumTo (fun d => (T d).1) (j + (N - j)) from by
              rw [← hNsplit],
            sumTo_add]
        have hMsplit : N - j = ((N - j) / (t - j)) * (t - j) + (N - j) % (t - j) := by
          rw [Nat.mul_comm]
          exact hdm.symm
        rw [show sumTo (fun d => (T (j + d)).1) (N - j) =
              sumTo (fun d => (T (j + d)).1)
                (((N - j) / (t - j)) * (t - j) + (N - j) % (t - j)) from by rw [← hMsplit]]
        rw [sum_periodic (fun d => (T (j + d)).1) (t - j) ((N - j) % (t - j))
              ((N - j) / (t - j))
              (fun d hd => by
                show (T (j + (d + (t - j)))).1 = (T (j + d)).1
                have hdlt : d + (t - j) < N - j := by rw [← hMsplit] at hd; exact hd
                have htd : t + d < N := by omega
                have hjd : j + (d + (t - j)) = t + d := by omega
                rw [hjd, hper d htd])]
        ring
      have hsum2 : sumTo (fun d => (T d).2) j +
          sumTo (fun d => (T (j + d)).2) (t - j) * ((N - j) / (t - j)) +
          sumTo (fun d => (T (j + d)).2) ((N - j) % (t - j)) =
          sumTo (fun d => (T d).2) N := by
        have hNsplit : N = j + (N - j) := by omega
        rw [show sumTo (fun d => (T d).2) N = sumTo (fun d => (T d).2) (j + (N - j)) from by
              rw [← hNsplit],
            sumTo_add]
        have hMsplit : N - j = ((N - j) / (t - j)) * (t - j) + (N - j) % (t - j) := by
          rw [Nat.mul_comm]
          exact hdm.symm
        rw [show sumTo (fun d => (T (j + d)).2) (N - j) =
              sumTo (fun d => (T (j + d)).2)
                (((N - j) / (t - j)) * (t - j) + (N - j) % (t - j)) from by rw [← hMsplit]]
        rw [sum_periodic (fun d => (T (j + d)).2) (t - j) ((N - j) % (t - j))
              ((N - j) / (t - j))
              (fun d hd => by
                show (T (j + (d + (t - j)))).2 = (T (j + d)).2
                have hdlt : d + (t - j) < N - j := by rw [← hMsplit] at hd; exact hd
                have htd : t + d < N := by omega
                have hjd : j + (d + (t - j)) = t + d := by omega
                rw [hjd, hper d htd])]
        ring
      rw [hsum1, hsum2]

/-- Adding a wrapped summand in the middle of a wrapped sum is the same
as adding the exact summand. -/
theorem add_mid_mod (W a b c : Nat) : ((a + b % W) % W + c) % W = (a + (b + c)) % W := by
  rw [Nat.mod_add_mod, Nat.add_right_comm a (b % W) c, Nat.add_mod_mod,
      Nat.add_right_comm a c b, Nat.add_assoc]

/-- A completed brute-force run determines a trace of machines and
per-press tallies whose wrapped sum is the result. -/
theorem bruteW_trace (W fuel : Nat) :
    ∀ N m acc r, acc.1 % W = acc.1 → acc.2 % W = acc.2 →
      bruteW W fuel N m acc = some r →
      ∃ (mAt : Nat → PulseMachine) (T : Nat → Nat × Nat), mAt 0 = m ∧
        (∀ i, i < N → (mAt i).handle_button_press fuel = some (T i, mAt (i + 1))) ∧
        r = ((acc.1 + sumTo (fun i => (T i).1) N) % W,
             (acc.2 + sumTo (fun i => (T i).2) N) % W) := by
  intro N
  induction N with
  | zero =>
    intro m acc r h1 h2 hb
    cases hb
    refine ⟨fun _ => m, fun _ => (0, 0), rfl, fun i hi => absurd hi (by omega), ?_⟩
    simp only [sumTo, Nat.add_zero]
    rw [h1, h2]
  | succ N ih =>
    intro m acc r h1 h2 hb
    cases hp : m.handle_button_press fuel with
    | none => simp [bruteW, hp] at hb
    | some res =>
      simp only [bruteW, hp] at hb
      obtain ⟨mAt, T, h0, hstep, hr⟩ := ih res.2 _ r
        (Nat.mod_mod_of_dvd _ dvd_rfl) (Nat.mod_mod_of_dvd _ dvd_rfl) hb
      refine ⟨fun i => match i with | 0 => m | i + 1 => mAt i,
              fun i => match i with | 0 => res.1 | i + 1 => T i, rfl, ?_, ?_⟩
      · intro i hi
        cases i with
        | zero =>
          show m.handle_button_press fuel = some (res.1, mAt 0)
          rw [h0, hp]
        | succ i =>
          show (mAt i).handle_button_press fuel = some (T i, mAt (i + 1))
          exact hstep i (by omega)
      · rw [hr]
        simp only [sumTo_peel, Prod.mk.injEq]
        exact ⟨add_mid_mod W acc.1 res.1.1 _, add_mid_mod W acc.2 res.1.2 _⟩

/-- C1 counterexample: the serialized state string fails as a
memoization key in two ways.  First, a stateful module named
"broadcaster" (here a flip-flop, built by `from_str` from
`%broadcaster -> a`) is invisible to the snapshot, so a spurious cycle
is detected: for two presses brute force tallies `(3, 2)` but the
extrapolator returns `(2, 2)`.  Second, ids containing the serializer's
separator characters make distinct states serialize to the same string:
on the network built from `broadcaster -> a` / `%a -> a:off;a` /
`%a:off;a -> x`, the distinct states after presses one and two share
the string "a:off;a:off;a:on", a spurious cycle is detected, and for
four presses brute force tallies `(11, 3)` but the extrapolator
returns `(11, 4)`. -/
theorem extrapolation_cex :
    (PulseMachine.from_str "%broadcaster -> a\n%a -> x" = .ok ffBroadcasterNet ∧
      bruteForce 20 ffBroadcasterNet 2 = some (3, 2) ∧
      PulseMachine.pulses 20 ffBroadcasterNet 2 = some (2, 2)) ∧
    (PulseMachine.from_str "broadcaster -> a\n%a -> a:off;a\n%a:off;a -> x" =
        .ok collisionNet ∧
      bruteForce 30 collisionNet 4 = some (11, 3) ∧
      PulseMachine.pulses 30 collisionNet 4 = some (11, 4)) := by
  refine ⟨⟨?_, ?_, ?_⟩, ?_, ?_, ?_⟩ <;> decide

/-- C1 (amended): for every network whose stateful modules are all
visible to the state snapshot (no flip-flop or conjunction named
"broadcaster"), whose module ids are pairwise distinct and, together
with all conjunction input keys, free of the serializer's separator
characters `:` `;` `,` `=` (so the state string is a faithful key), and
every press count `N` for which the brute-force simulation completes,
the cycle-aware extrapolator `pulses` returns exactly the brute-force
`(low, high)` pair — for `N` below and above the detected cycle length
alike. -/
theorem pulses_eq_brute_force (fuel N : Nat) (m : PulseMachine) (r : Nat × Nat)
    (hgood : m.goodM) (hb : bruteForce fuel m N = some r) :
    m.pulses fuel N = some r := by
  obtain ⟨mAt, T, h0, hstep, hr⟩ :=
    bruteW_trace U32 fuel N m (0, 0) r (by simp) (by simp) hb
  subst h0
  have hmain := pulsesLoop_correct U32 fuel N mAt T hstep hgood N 0 (by omega)
    (fun p q _ hq => absurd hq (by omega))
  rw [PulseMachine.pulses, pulsesW]
  have hinit1 : sumTo (fun i => (T i).1) 0 % U32 = 0 := by simp [sumTo]
  have hinit2 : sumTo (fun i => (T i).2) 0 % U32 = 0 := by simp [sumTo]
  rw [hinit1, hinit2] at hmain
  simp only [keyList, cacheList] at hmain
  rw [hmain, hr]
  simp

/-- C1 witness: the source's first test network is good (covered state,
distinct separator-free ids), five presses brute-force to `(40, 20)`
(above the length-1 cycle detected after two presses), and the
extrapolator agrees. -/
theorem pulses_eq_brute_force_witness :
    PulseMachine.pulses 100 net1 5 = some (40, 20) :=
  pulses_eq_brute_force 100 5 net1 (40, 20) (by decide) (by decide)

end Day20
